import Mathlib

/-!
Formal model of the core of Slide2Video: the subtitle chunking and timing
algorithm of src/processors/video_processor.py, the fallback behaviour of
src/processors/transcript_polisher.py, and the ordering behaviour of the
concurrent stages (transcript, audio and polish processors).

Python strings are modelled as Lean String.  A subtitle chunk is represented
by its list of words; the Python code only ever builds chunk strings by
joining words with single spaces, so the word list determines the chunk
string (spaceJoin) and its length (pyLen).  Python float arithmetic is
modelled by exact rational arithmetic.
-/

namespace Slide2Video

/-! ### Python string primitives -/

/-- Python text.split() with no arguments: split on runs of whitespace and
drop empty pieces.  The second argument holds the characters of the current
word in reverse order. -/
def pySplitAux : List Char → List Char → List String
  | [], [] => []
  | [], cur => [String.mk cur.reverse]
  | c :: cs, cur =>
    if c.isWhitespace then
      if cur.isEmpty then pySplitAux cs []
      else String.mk cur.reverse :: pySplitAux cs []
    else pySplitAux cs (c :: cur)

/-- The word list of a text: Python text.split(). -/
def pyWords (s : String) : List String := pySplitAux s.data []

/-- Join a list of strings with the given separator: Python sep.join(parts). -/
def joinSep (sep : String) : List String → String
  | [] => ""
  | [w] => w
  | w :: ws => w ++ sep ++ joinSep sep ws

/-- The chunk string determined by a word list: Python " ".join(ws). -/
def spaceJoin (ws : List String) : String := joinSep " " ws

/-- Whitespace normalisation performed at the top of
_split_text_into_subtitle_chunks: re.sub on runs of whitespace after strip,
equivalently " ".join(text.split()). -/
def normalizeText (s : String) : String := spaceJoin (pyWords s)

/-- Length in characters of the chunk string spaceJoin ws: the Python len of
a chunk built from the word list ws. -/
def pyLen : List String → Nat
  | [] => 0
  | [w] => w.length
  | w :: ws => w.length + 1 + pyLen ws

/-- Length of the Python f-string joining two chunk strings with one space, as
tested by _merge_short_chunks before merging. -/
def combLen (a b : List String) : Nat := pyLen a + 1 + pyLen b

/-- Python str.strip: drop leading and trailing whitespace. -/
def pyStrip (s : String) : String :=
  String.mk (((s.data.dropWhile Char.isWhitespace).reverse.dropWhile Char.isWhitespace).reverse)

/-- Replace every newline character by a space, undoing the line wrapping
inside a formatted chunk. -/
def unwrapNewlines (s : String) : String :=
  String.mk (s.data.map (fun c => if c = '\n' then ' ' else c))

/-! ### Chunking: _split_text_into_subtitle_chunks -/

/-- The greedy word accumulation loop shared, line for line, by the chunking
loop of _split_text_into_subtitle_chunks (limit max_chunk_chars) and the
wrapping loop of _format_chunk_lines (limit max_chars_per_line): add the next
word to the current chunk while the joined string stays within the limit,
otherwise emit the current chunk and start a new one from the word. -/
def greedyPackAux (limit : Nat) : List String → List String → List (List String)
  | cur, [] => if cur.isEmpty then [] else [cur]
  | cur, w :: ws =>
    if pyLen (cur ++ [w]) ≤ limit then greedyPackAux limit (cur ++ [w]) ws
    else if cur.isEmpty then greedyPackAux limit [w] ws
    else cur :: greedyPackAux limit [w] ws

/-- Greedy packing of a word list starting from an empty current chunk. -/
def greedyPack (limit : Nat) (words : List String) : List (List String) :=
  greedyPackAux limit [] words

/-- The while loop of _merge_short_chunks.  The accumulator is the merged list
in reverse order, so that its head plays the role of merged[-1]. -/
def mergeLoop (maxChars minChars : Nat) :
    List (List String) → List (List String) → List (List String)
  | acc, [] => acc.reverse
  | acc, [c] =>
    match acc with
    | p :: acc2 =>
      if pyLen c < minChars ∧ combLen p c ≤ maxChars then
        mergeLoop maxChars minChars ((p ++ c) :: acc2) []
      else mergeLoop maxChars minChars (c :: acc) []
    | [] => mergeLoop maxChars minChars (c :: acc) []
  | acc, c :: n :: rest =>
    if pyLen c < minChars ∧ combLen c n ≤ maxChars then
      mergeLoop maxChars minChars ((c ++ n) :: acc) rest
    else
      match acc with
      | p :: acc2 =>
        if pyLen c < minChars ∧ combLen p c ≤ maxChars then
          mergeLoop maxChars minChars ((p ++ c) :: acc2) (n :: rest)
        else mergeLoop maxChars minChars (c :: acc) (n :: rest)
      | [] => mergeLoop maxChars minChars (c :: acc) (n :: rest)

/-- Faithful translation of _merge_short_chunks. -/
def merge_short_chunks (chunks : List (List String)) (maxChars minChars : Nat) :
    List (List String) :=
  if chunks.length ≤ 1 then chunks else mergeLoop maxChars minChars [] chunks

/-- Absolute difference of two lengths, the balance measure used by the
line balancing search of _format_chunk_lines. -/
def absDiff (a b : Nat) : Nat := max a b - min a b

/-- One step of the balanced split search: the state is the current pair of
best_split and best_diff, with none standing for the initial infinite
best_diff. -/
def bestSplitStep (ws : List String) (maxLine : Nat) (st : Nat × Option Nat) (sp : Nat) :
    Nat × Option Nat :=
  let l1 := pyLen (ws.take sp)
  let l2 := pyLen (ws.drop sp)
  if l1 ≤ maxLine ∧ l2 ≤ maxLine then
    match st.2 with
    | none => (sp, some (absDiff l1 l2))
    | some bd => if absDiff l1 l2 < bd then (sp, some (absDiff l1 l2)) else st
  else st

/-- The balanced split point searched in the more-than-two-lines branch of
_format_chunk_lines: candidates in the window of three words around the
midpoint, keeping the candidate that minimises the length difference among
those where both lines fit. -/
def bestSplit (ws : List String) (maxLine : Nat) : Nat :=
  let mid := ws.length / 2
  let lo := max 1 (mid - 3)
  let hi := min ws.length (mid + 4)
  ((List.range' lo (hi - lo)).foldl (bestSplitStep ws maxLine) (mid, none)).1

/-- Faithful translation of _format_chunk_lines, producing the list of display
lines, each a list of words.  The Python function receives the chunk string
and recovers the words with chunk.split(); a chunk is a space-joined word
list, so the word list is the faithful representation. -/
def format_chunk_lines (chunk : List String) (maxCharsPerLine : Nat) : List (List String) :=
  if pyLen chunk ≤ maxCharsPerLine then [chunk]
  else
    let lines := greedyPackAux maxCharsPerLine [] chunk
    if lines.length ≤ 2 then lines
    else [chunk.take (bestSplit chunk maxCharsPerLine), chunk.drop (bestSplit chunk maxCharsPerLine)]

/-- Display text of a formatted chunk: its lines joined with newlines, as
returned by _format_chunk_lines. -/
def displayText (lines : List (List String)) : String := joinSep "\n" (lines.map spaceJoin)

/-- The chunk word lists produced by _split_text_into_subtitle_chunks before
line formatting: whitespace normalisation, greedy split at
max_chars_per_line * max_lines, then the short-chunk merge pass with
min_chunk_chars = 15. -/
def chunkWords (text : String) (maxCharsPerLine maxLines : Nat) : List (List String) :=
  let ws := pyWords text
  if ws.isEmpty then []
  else
    merge_short_chunks (greedyPack (maxCharsPerLine * maxLines) ws) (maxCharsPerLine * maxLines) 15

/-- Faithful translation of _split_text_into_subtitle_chunks: the returned
chunk strings, with internal line breaks, in order. -/
def split_text_into_subtitle_chunks (text : String) (maxCharsPerLine : Nat := 50)
    (maxLines : Nat := 2) : List String :=
  (chunkWords text maxCharsPerLine maxLines).map
    (fun c => displayText (format_chunk_lines c maxCharsPerLine))

/-! ### Timing: create_video_with_subtitles -/

/-- One subtitle entry appended to srt_entries. -/
structure SrtEntry where
  index : Nat
  start : ℚ
  stop : ℚ
  text : String
deriving Repr, DecidableEq, Inhabited

/-- The duration adjustment applied to every chunk: extend to at least 1.5
seconds, cut to at most 6 seconds, then never exceed the audio end of the
slide. -/
def clampStop (start stop0 slideEnd : ℚ) : ℚ :=
  let dur := stop0 - start
  let stop1 := if dur < 3 / 2 then start + 3 / 2 else if 6 < dur then start + 6 else stop0
  min stop1 slideEnd

/-- The equal share of a chunk clamped into the interval from 1.5 to 6
seconds; with d the equal share, a chunk ends at its start plus rclamp d
before the slide-boundary cut. -/
def rclamp (d : ℚ) : ℚ := if d < 3 / 2 then 3 / 2 else if 6 < d then 6 else d

/-- The chunk_duration computed for a slide: the audio duration divided by the
chunk count, guarded against an empty chunk list. -/
def chunk_duration (transcript : String) (audioDuration : ℚ) : ℚ :=
  let chunks := split_text_into_subtitle_chunks transcript 50 2
  if chunks.isEmpty then audioDuration else audioDuration / (chunks.length : ℚ)

/-- The subtitle entries generated for one slide: the transcript is chunked
with the default settings, chunk j of C receives the slot of the equal share
audioDuration / C starting at the slide start, and every end time is clamped
by clampStop. -/
def slideSrtEntries (transcript : String) (currentTime audioDuration : ℚ)
    (startIdx : Nat) : List SrtEntry :=
  let chunks := split_text_into_subtitle_chunks transcript 50 2
  let cd := chunk_duration transcript audioDuration
  (List.range chunks.length).map fun j =>
    { index := startIdx + j
      start := currentTime + (j : ℚ) * cd
      stop := clampStop (currentTime + (j : ℚ) * cd) (currentTime + ((j : ℚ) + 1) * cd)
        (currentTime + audioDuration)
      text := chunks.getD j "" }

/-- Result of the assembly loop: the subtitle entries, the global clock after
the last slide, and one pair of image path and clip duration per produced
video clip. -/
structure AsmResult where
  entries : List SrtEntry
  currentTime : ℚ
  clips : List (String × ℚ)
deriving Repr

/-- The per-slide loop of create_video_with_subtitles.  The list argument is
zip(image_paths, audio_paths) with each audio clip replaced by its duration;
the Nat argument is the running slide index, then the global clock and the
next subtitle index follow. -/
def createVideoAux (transitionBreak : ℚ) (numImages : Nat) (transcripts : List String) :
    List (String × ℚ) → Nat → ℚ → Nat → AsmResult
  | [], _, t, _ => { entries := [], currentTime := t, clips := [] }
  | (img, d) :: rest, i, t, sidx =>
    let isLast := i = numImages - 1
    let total := if ¬ isLast ∧ 0 < transitionBreak then d + transitionBreak else d
    let es := if i < transcripts.length then slideSrtEntries (transcripts.getD i "") t d sidx else []
    let r := createVideoAux transitionBreak numImages transcripts rest (i + 1) (t + total)
      (sidx + es.length)
    { entries := es ++ r.entries, currentTime := r.currentTime, clips := (img, total) :: r.clips }

/-- Faithful model of create_video_with_subtitles: audio clips are represented
by their durations; video encoding and file writing are external effects and
are represented by the returned clip list and entry list. -/
def create_video_with_subtitles (imagePaths : List String) (audioDurations : List ℚ)
    (transcripts : List String) (transitionBreak : ℚ) : AsmResult :=
  createVideoAux transitionBreak imagePaths.length transcripts (imagePaths.zip audioDurations) 0 0 1

/-- The per-slide blocks of the subtitle timeline: block k holds exactly the
entries the assembly loop appends while processing slide k.  The state
arguments evolve exactly as in createVideoAux, so the concatenation of the
blocks is the produced entry list. -/
def timelineBlocksAux (transitionBreak : ℚ) (numImages : Nat) (transcripts : List String) :
    List (String × ℚ) → Nat → ℚ → Nat → List (List SrtEntry)
  | [], _, _, _ => []
  | (_, d) :: rest, i, t, sidx =>
    let isLast := i = numImages - 1
    let total := if ¬ isLast ∧ 0 < transitionBreak then d + transitionBreak else d
    let es := if i < transcripts.length then slideSrtEntries (transcripts.getD i "") t d sidx else []
    es :: timelineBlocksAux transitionBreak numImages transcripts rest (i + 1) (t + total)
      (sidx + es.length)

/-- The per-slide entry blocks of a whole run of create_video_with_subtitles. -/
def timelineBlocks (imagePaths : List String) (audioDurations : List ℚ)
    (transcripts : List String) (transitionBreak : ℚ) : List (List SrtEntry) :=
  timelineBlocksAux transitionBreak imagePaths.length transcripts
    (imagePaths.zip audioDurations) 0 0 1

/-! ### Paths and slide numbers -/

/-- Characters of a path after the last slash: Path(p).name. -/
def pathName (p : String) : String :=
  String.mk ((p.data.reverse.takeWhile (fun c => c ≠ '/')).reverse)

/-- Stem of a file name: Path(p).stem, the name with the suffix after its
last dot removed; a name without a dot is kept whole. -/
def pathStem (p : String) : String :=
  let name := (pathName p).data
  if name.contains '.' then
    String.mk (((name.reverse.dropWhile (fun c => c ≠ '.')).drop 1).reverse)
  else String.mk name

/-- Value of a digit run, most significant digit first. -/
def parseDigits (ds : List Char) : Nat := ds.foldl (fun n c => n * 10 + (c.toNat - 48)) 0

/-- First match of the slide number pattern: scan left to right for the
literal slide_ followed by at least one digit; the captured group is the
maximal digit run after the underscore. -/
def findSlideNumber : List Char → Option Nat
  | [] => none
  | c :: cs =>
    if ("slide_".data).isPrefixOf (c :: cs) ∧ (((c :: cs).drop 6).headD ' ').isDigit then
      some (parseDigits (((c :: cs).drop 6).takeWhile Char.isDigit))
    else findSlideNumber cs

/-- First maximal digit run anywhere in the name, the fallback pattern. -/
def findFirstNumber : List Char → Option Nat
  | [] => none
  | c :: cs =>
    if c.isDigit then some (parseDigits ((c :: cs).takeWhile Char.isDigit))
    else findFirstNumber cs

/-- Faithful translation of _extract_slide_number; none models the raised
ValueError. -/
def extract_slide_number (filepath : String) : Option Nat :=
  let filename := (pathName filepath).data
  match findSlideNumber filename with
  | some k => some k
  | none => findFirstNumber filename

/-! ### Polishing: transcript_polisher.py -/

/-- Python dict assignment on an association list: replace the value in place
if the key is present, otherwise append the new pair. -/
def dictInsert (d : List (Nat × String)) (k : Nat) (v : String) : List (Nat × String) :=
  if d.any (fun kv => kv.1 == k) then d.map (fun kv => if kv.1 = k then (k, v) else kv)
  else d ++ [(k, v)]

/-- The loop of _load_all_transcripts: read and strip each file, keyed by the
extracted slide number; fs models the file system, the error carries the
offending path. -/
def loadAllTranscriptsAux (fs : String → String) (acc : List (Nat × String)) :
    List String → Except String (List (Nat × String))
  | [] => .ok acc
  | p :: ps =>
    match extract_slide_number p with
    | some k => loadAllTranscriptsAux fs (dictInsert acc k (pyStrip (fs p))) ps
    | none => .error p

/-- Faithful translation of _load_all_transcripts. -/
def load_all_transcripts (fs : String → String) (paths : List String) :
    Except String (List (Nat × String)) :=
  loadAllTranscriptsAux fs [] paths

/-- Model of the TranscriptPolisher configuration: generateDescription is the
thread-local AI provider call on a formatted prompt, and the two prompt
fields model the format calls on the stored prompt templates. -/
structure TranscriptPolisher where
  generateDescription : String → Except String String
  polishingPrompt : String → String → String
  firstSlidePrompt : String → String

/-- Faithful translation of _polish_single_transcript: the result is the slide
number together with the content written to its polished output file; when
the transform fails the raw (stripped) content is written instead. -/
def polish_single_transcript (tp : TranscriptPolisher) (allContent : List (Nat × String))
    (k : Nat) : Nat × String :=
  let current := (allContent.lookup k).getD ""
  let prompt :=
    if k = 1 then tp.firstSlidePrompt current
    else
      let previous := (allContent.lookup (k - 1)).getD ""
      tp.polishingPrompt (if previous = "" then "[This is the first slide]" else previous) current
  match tp.generateDescription prompt with
  | .ok polished => (k, polished)
  | .error _ => (k, current)

/-- Faithful model of polish_transcripts: load every transcript, polish each
slide, and return the written files as pairs of slide number and content in
dictionary key order.  The written files do not depend on the completion
order of the worker pool; the returned path list of the Python function is
modelled separately by polishReturnedPaths. -/
def polish_transcripts (tp : TranscriptPolisher) (fs : String → String) (paths : List String) :
    Except String (List (Nat × String)) :=
  match load_all_transcripts fs paths with
  | .error e => .error e
  | .ok d => .ok (d.map (fun kv => polish_single_transcript tp d kv.1))

/-! ### Stage result ordering -/

/-- Lexicographic comparison of character lists by code point, the order
Python uses on str. -/
def lexLeB : List Char → List Char → Bool
  | [], _ => true
  | _ :: _, [] => false
  | a :: as, b :: bs =>
    if a.toNat < b.toNat then true
    else if b.toNat < a.toNat then false
    else lexLeB as bs

/-- Lexicographic order on strings by character code point. -/
def strLe (s t : String) : Prop := lexLeB s.data t.data = true

instance : DecidableRel strLe := fun s t => inferInstanceAs (Decidable (_ = true))

/-- Python sorted and list.sort on strings: the strLe-sorted permutation of
the input, computed here by insertion sort (any correct sort produces the
same list because the sorted permutation is unique). -/
def sortStrings (l : List String) : List String := l.insertionSort strLe

/-- The ordering the specification asserts: the list sorted by the slide
index extracted from each path. -/
def sortBySlideIndex (l : List String) : List String :=
  l.insertionSort (fun a b => (extract_slide_number a).getD 0 ≤ (extract_slide_number b).getD 0)

/-- Output file name chosen by _generate_single_transcript: the image stem
with a txt suffix.  The common output directory prefix is identical for all
slides of a run and therefore does not affect the sort order; paths are
modelled by their file names. -/
def transcriptOutputName (imagePath : String) : String := pathStem imagePath ++ ".txt"

/-- Model of TranscriptProcessor.generate_transcripts for result ordering:
completionOrder is the order in which as_completed yields the futures, an
arbitrary permutation of the submitted image paths; result paths are
collected in that order and then sorted as strings. -/
def generate_transcripts (completionOrder : List String) : List String :=
  sortStrings (completionOrder.map transcriptOutputName)

/-- Output file name chosen by _generate_single_audio: the transcript stem
with the configured audio format suffix. -/
def audioOutputName (audioFormat : String) (transcriptPath : String) : String :=
  pathStem transcriptPath ++ "." ++ audioFormat

/-- Model of AudioProcessor.generate_audio_files for result ordering. -/
def generate_audio_files (audioFormat : String) (completionOrder : List String) : List String :=
  sortStrings (completionOrder.map (audioOutputName audioFormat))

/-- Zero padded slide number as formatted by the 02d format specifier. -/
def pad2 (k : Nat) : String := if k < 10 then "0" ++ toString k else toString k

/-- Output file name written by _polish_single_transcript. -/
def polishedOutputName (k : Nat) : String := "polished_slide_" ++ pad2 k ++ ".txt"

/-- The path list returned by polish_transcripts: paths collected in
completion order of the worker pool, then sorted as strings. -/
def polishReturnedPaths (completionOrder : List Nat) : List String :=
  sortStrings (completionOrder.map polishedOutputName)

/-! ### Concrete inputs used by counterexamples and witnesses -/

/-- A word of sixty letters a. -/
def w60a : String := String.mk (List.replicate 60 'a')

/-- A word of sixty letters b. -/
def w60b : String := String.mk (List.replicate 60 'b')

/-- A transcript of two sixty-letter words: it exceeds the default cap of one
hundred characters and therefore splits into exactly two chunks. -/
def bigT : String := w60a ++ " " ++ w60b

/-- A polisher whose AI call always raises. -/
def tpFail : TranscriptPolisher :=
  { generateDescription := fun _ => .error "API error"
    polishingPrompt := fun _ c => c
    firstSlidePrompt := fun c => c }

/-- A tiny file system for the polish counterexample and witness: the raw
transcript of slide one ends with a newline. -/
def fsDemo : String → String :=
  fun p => if p = "slide_01.txt" then "hello\n" else " world "

/-! ### Lemmas on the string primitives -/

theorem joinSep_cons (sep w : String) (ws : List String) (h : ws ≠ []) :
    joinSep sep (w :: ws) = w ++ sep ++ joinSep sep ws := by
  cases ws with
  | nil => exact absurd rfl h
  | cons x xs => rfl

theorem pyLen_cons (w : String) (ws : List String) (h : ws ≠ []) :
    pyLen (w :: ws) = w.length + 1 + pyLen ws := by
  cases ws with
  | nil => exact absurd rfl h
  | cons x xs => rfl

theorem pyLen_append (a b : List String) (ha : a ≠ []) (hb : b ≠ []) :
    pyLen (a ++ b) = pyLen a + 1 + pyLen b := by
  induction a with
  | nil => exact absurd rfl ha
  | cons w ws ih =>
    cases ws with
    | nil => simpa [pyLen] using pyLen_cons w b hb
    | cons x xs =>
      rw [List.cons_append, pyLen_cons w ((x :: xs) ++ b) (by simp),
        pyLen_cons w (x :: xs) (by simp), ih (by simp)]
      omega

theorem pyLen_append_singleton (cur : List String) (w : String) (h : cur ≠ []) :
    pyLen (cur ++ [w]) = pyLen cur + 1 + w.length := by
  simpa [pyLen] using pyLen_append cur [w] h (by simp)

theorem spaceJoin_append (a b : List String) (ha : a ≠ []) (hb : b ≠ []) :
    spaceJoin (a ++ b) = spaceJoin a ++ " " ++ spaceJoin b := by
  induction a with
  | nil => exact absurd rfl ha
  | cons w ws ih =>
    cases ws with
    | nil => simpa [spaceJoin, joinSep] using joinSep_cons " " w b hb
    | cons x xs =>
      simp only [spaceJoin] at *
      rw [List.cons_append, joinSep_cons " " w ((x :: xs) ++ b) (by simp),
        joinSep_cons " " w (x :: xs) (by simp), ih (by simp)]
      simp [String.ext_iff, String.data_append]

theorem length_spaceJoin (ws : List String) : (spaceJoin ws).length = pyLen ws := by
  induction ws with
  | nil => rfl
  | cons w xs ih =>
    cases xs with
    | nil => rfl
    | cons x ys =>
      rw [spaceJoin, joinSep_cons " " w (x :: ys) (by simp), pyLen_cons w (x :: ys) (by simp)]
      have : joinSep " " (x :: ys) = spaceJoin (x :: ys) := rfl
      rw [this, String.length_append, String.length_append, ih]
      rfl

theorem flatten_ne_nil {α : Type} (x : List α) (xs : List (List α)) (hx : x ≠ []) :
    (x :: xs).flatten ≠ [] := by
  simp only [List.flatten_cons, ne_eq, List.append_eq_nil]
  intro h
  exact hx h.1

theorem length_le_length_flatten {α : Type} (l : List (List α)) (h : ∀ x ∈ l, x ≠ []) :
    l.length ≤ l.flatten.length := by
  induction l with
  | nil => simp
  | cons x xs ih =>
    simp only [List.flatten_cons, List.length_append, List.length_cons]
    have hx : 1 ≤ x.length := by
      have hne := h x (by simp)
      cases x with
      | nil => exact absurd rfl hne
      | cons a as => simp
    have := ih (fun y hy => h y (by simp [hy]))
    omega

theorem joinSep_map_spaceJoin (l : List (List String)) (h : ∀ x ∈ l, x ≠ []) :
    joinSep " " (l.map spaceJoin) = spaceJoin l.flatten := by
  induction l with
  | nil => rfl
  | cons x xs ih =>
    cases xs with
    | nil => simp [joinSep, spaceJoin]
    | cons y ys =>
      rw [List.map_cons, joinSep_cons " " (spaceJoin x) ((y :: ys).map spaceJoin) (by simp),
        ih (fun z hz => h z (by simp [hz]))]
      simp only [List.flatten_cons]
      have hfl : y ++ ys.flatten ≠ [] := by
        intro hq
        exact h y (by simp) (List.append_eq_nil.mp hq).1
      exact (spaceJoin_append x (y ++ ys.flatten) (h x (by simp)) hfl).symm

theorem pySplitAux_words (cs : List Char) :
    ∀ cur, (∀ c ∈ cur, c.isWhitespace = false) →
      ∀ w ∈ pySplitAux cs cur, w.data ≠ [] ∧ ∀ c ∈ w.data, c.isWhitespace = false := by
  induction cs with
  | nil =>
    intro cur hcur w hw
    cases cur with
    | nil => simp [pySplitAux] at hw
    | cons a as =>
      simp only [pySplitAux, List.mem_singleton] at hw
      subst hw
      refine ⟨by simp, ?_⟩
      intro c hc
      have hcm : c ∈ (a :: as).reverse := by simpa using hc
      exact hcur c (List.mem_reverse.mp hcm)
  | cons c cs ih =>
    intro cur hcur w hw
    simp only [pySplitAux] at hw
    by_cases hws : c.isWhitespace
    · rw [if_pos hws] at hw
      cases cur with
      | nil => exact ih [] (by simp) w (by simpa using hw)
      | cons a as =>
        rcases (by simpa using hw :
            w = String.mk (a :: as).reverse ∨ w ∈ pySplitAux cs []) with h | h
        · subst h
          refine ⟨by simp, ?_⟩
          intro x hx
          have hxm : x ∈ (a :: as).reverse := by simpa using hx
          exact hcur x (List.mem_reverse.mp hxm)
        · exact ih [] (by simp) w h
    · rw [if_neg hws] at hw
      refine ih (c :: cur) ?_ w hw
      intro x hx
      rcases List.mem_cons.mp hx with h | h
      · subst h; simpa using hws
      · exact hcur x h

theorem pyWords_words (s : String) :
    ∀ w ∈ pyWords s, w.data ≠ [] ∧ ∀ c ∈ w.data, c.isWhitespace = false :=
  pySplitAux_words s.data [] (by simp)

theorem map_unwrap_eq_self (l : List Char) (h : ∀ c ∈ l, c ≠ '\n') :
    l.map (fun c => if c = '\n' then ' ' else c) = l := by
  induction l with
  | nil => rfl
  | cons c cs ih =>
    rw [List.map_cons, if_neg (h c (by simp)), ih (fun x hx => h x (by simp [hx]))]

theorem unwrapNewlines_append (a b : String) :
    unwrapNewlines (a ++ b) = unwrapNewlines a ++ unwrapNewlines b := by
  apply String.ext
  simp [unwrapNewlines, String.data_append]

theorem mem_data_spaceJoin (l : List String) (c : Char) (hc : c ∈ (spaceJoin l).data) :
    (∃ w ∈ l, c ∈ w.data) ∨ c = ' ' := by
  induction l with
  | nil => simp [spaceJoin, joinSep] at hc
  | cons w ws ih =>
    cases ws with
    | nil => exact Or.inl ⟨w, by simp, by simpa [spaceJoin, joinSep] using hc⟩
    | cons x xs =>
      rw [spaceJoin, joinSep_cons " " w (x :: xs) (by simp)] at hc
      rcases (by simpa [String.data_append] using hc :
          c ∈ w.data ∨ c = ' ' ∨ c ∈ (joinSep " " (x :: xs)).data) with h | h | h
      · exact Or.inl ⟨w, by simp, h⟩
      · exact Or.inr h
      · rcases ih (by simpa [spaceJoin] using h) with ⟨w', hw', hcw⟩ | h'
        · exact Or.inl ⟨w', by simp [hw'], hcw⟩
        · exact Or.inr h'

theorem unwrap_spaceJoin_eq_self (l : List String)
    (hwords : ∀ w ∈ l, ∀ c ∈ w.data, c.isWhitespace = false) :
    unwrapNewlines (spaceJoin l) = spaceJoin l := by
  apply String.ext
  simp only [unwrapNewlines]
  apply map_unwrap_eq_self
  intro c hc
  rcases mem_data_spaceJoin l c hc with ⟨w, hw, hcw⟩ | h
  · intro hX
    have := hwords w hw c hcw
    rw [hX] at this
    simp at this
  · subst h; decide

theorem unwrap_displayText (lines : List (List String))
    (hne : ∀ l ∈ lines, l ≠ [])
    (hwords : ∀ l ∈ lines, ∀ w ∈ l, ∀ c ∈ w.data, c.isWhitespace = false) :
    unwrapNewlines (displayText lines) = spaceJoin lines.flatten := by
  induction lines with
  | nil => rfl
  | cons l ls ih =>
    cases ls with
    | nil =>
      have : displayText [l] = spaceJoin l := rfl
      rw [this, unwrap_spaceJoin_eq_self l (hwords l (by simp))]
      simp [spaceJoin]
    | cons m ms =>
      rw [displayText, List.map_cons,
        joinSep_cons "\n" (spaceJoin l) ((m :: ms).map spaceJoin) (by simp)]
      have hdt : joinSep "\n" ((m :: ms).map spaceJoin) = displayText (m :: ms) := rfl
      rw [hdt, unwrapNewlines_append, unwrapNewlines_append,
        unwrap_spaceJoin_eq_self l (hwords l (by simp)),
        ih (fun x hx => hne x (by simp [hx])) (fun x hx => hwords x (by simp [hx]))]
      have hnl : unwrapNewlines "\n" = " " := by decide
      rw [hnl]
      simp only [List.flatten_cons]
      have hfl : m ++ ms.flatten ≠ [] := by
        intro hq
        exact hne m (by simp) (List.append_eq_nil.mp hq).1
      exact (spaceJoin_append l (m ++ ms.flatten) (hne l (by simp)) hfl).symm

theorem length_displayText (lines : List (List String)) (hne : ∀ l ∈ lines, l ≠ []) :
    (displayText lines).length = pyLen lines.flatten := by
  induction lines with
  | nil => rfl
  | cons l ls ih =>
    cases ls with
    | nil =>
      have h1 : displayText [l] = spaceJoin l := rfl
      rw [h1, length_spaceJoin]
      simp
    | cons m ms =>
      rw [displayText, List.map_cons,
        joinSep_cons "\n" (spaceJoin l) ((m :: ms).map spaceJoin) (by simp)]
      have hdt : joinSep "\n" ((m :: ms).map spaceJoin) = displayText (m :: ms) := rfl
      rw [hdt, String.length_append, String.length_append, length_spaceJoin,
        ih (fun x hx => hne x (by simp [hx]))]
      simp only [List.flatten_cons]
      have hfl : m ++ ms.flatten ≠ [] := by
        intro hq
        exact hne m (by simp) (List.append_eq_nil.mp hq).1
      rw [pyLen_append l (m ++ ms.flatten) (hne l (by simp)) hfl]
      rfl

/-! ### Lemmas on the greedy packer -/

theorem greedyPackAux_flatten (limit : Nat) :
    ∀ (ws cur : List String), (greedyPackAux limit cur ws).flatten = cur ++ ws := by
  intro ws
  induction ws with
  | nil =>
    intro cur
    cases cur with
    | nil => simp [greedyPackAux]
    | cons a as => simp [greedyPackAux]
  | cons w ws ih =>
    intro cur
    simp only [greedyPackAux]
    by_cases h1 : pyLen (cur ++ [w]) ≤ limit
    · rw [if_pos h1, ih (cur ++ [w])]
      simp
    · rw [if_neg h1]
      cases cur with
      | nil => simp [ih [w]]
      | cons a as => simp [ih [w]]

theorem greedyPackAux_ne_nil (limit : Nat) :
    ∀ (ws cur : List String), ∀ c ∈ greedyPackAux limit cur ws, c ≠ [] := by
  intro ws
  induction ws with
  | nil =>
    intro cur c hc
    cases cur with
    | nil => simp [greedyPackAux] at hc
    | cons a as =>
      simp only [greedyPackAux] at hc
      simp at hc
      simp [hc]
  | cons w ws ih =>
    intro cur c hc
    simp only [greedyPackAux] at hc
    by_cases h1 : pyLen (cur ++ [w]) ≤ limit
    · exact ih _ c (by rwa [if_pos h1] at hc)
    · rw [if_neg h1] at hc
      cases cur with
      | nil => exact ih _ c (by simpa using hc)
      | cons a as =>
        rcases (by simpa using hc : c = a :: as ∨ c ∈ greedyPackAux limit [w] ws) with h | h
        · simp [h]
        · exact ih _ c h

theorem greedyPackAux_head_pyLen (limit : Nat) :
    ∀ (ws cur : List String), cur ≠ [] →
      ∀ h ∈ (greedyPackAux limit cur ws).head?, pyLen cur ≤ pyLen h := by
  intro ws
  induction ws with
  | nil =>
    intro cur hcur h hh
    cases cur with
    | nil => exact absurd rfl hcur
    | cons a as =>
      simp only [greedyPackAux, List.isEmpty_cons, Bool.false_eq_true, if_false,
        List.head?_cons, Option.mem_def, Option.some.injEq] at hh
      simp [← hh]
  | cons w ws ih =>
    intro cur hcur h hh
    simp only [greedyPackAux] at hh
    by_cases h1 : pyLen (cur ++ [w]) ≤ limit
    · rw [if_pos h1] at hh
      have h2 := ih (cur ++ [w]) (by simp) h hh
      have h3 : pyLen (cur ++ [w]) = pyLen cur + 1 + w.length :=
        pyLen_append_singleton cur w hcur
      omega
    · rw [if_neg h1] at hh
      cases cur with
      | nil => exact absurd rfl hcur
      | cons a as =>
        simp only [List.isEmpty_cons, Bool.false_eq_true, if_false, List.head?_cons,
          Option.mem_def, Option.some.injEq] at hh
        simp [← hh]

theorem greedyPackAux_chain (limit : Nat) :
    ∀ (ws cur : List String),
      List.Chain' (fun a b => limit < combLen a b) (greedyPackAux limit cur ws) := by
  intro ws
  induction ws with
  | nil =>
    intro cur
    cases cur with
    | nil => simp [greedyPackAux]
    | cons a as => simp [greedyPackAux]
  | cons w ws ih =>
    intro cur
    simp only [greedyPackAux]
    by_cases h1 : pyLen (cur ++ [w]) ≤ limit
    · rw [if_pos h1]
      exact ih _
    · rw [if_neg h1]
      cases cur with
      | nil => exact ih _
      | cons a as =>
        simp only [List.isEmpty_cons, Bool.false_eq_true, if_false]
        rw [List.chain'_cons']
        refine ⟨?_, ih [w]⟩
        intro y hy
        have h2 := greedyPackAux_head_pyLen limit ws [w] (by simp) y hy
        have h3 : pyLen ((a :: as) ++ [w]) = pyLen (a :: as) + 1 + w.length :=
          pyLen_append_singleton (a :: as) w (by simp)
        have h4 : pyLen [w] = w.length := rfl
        simp only [combLen]
        omega

theorem greedyPackAux_bounds (limit : Nat) :
    ∀ (ws cur : List String),
      (cur = [] ∨ pyLen cur ≤ limit ∨ ∃ w, cur = [w] ∧ limit < w.length) →
      ∀ c ∈ greedyPackAux limit cur ws,
        pyLen c ≤ limit ∨ ∃ w, c = [w] ∧ limit < w.length := by
  intro ws
  induction ws with
  | nil =>
    intro cur hcur c hc
    cases cur with
    | nil => simp [greedyPackAux] at hc
    | cons a as =>
      simp only [greedyPackAux, List.isEmpty_cons, Bool.false_eq_true, if_false,
        List.mem_singleton] at hc
      subst hc
      rcases hcur with h | h | h
      · simp at h
      · exact Or.inl h
      · exact Or.inr h
  | cons w ws ih =>
    intro cur hcur c hc
    simp only [greedyPackAux] at hc
    by_cases h1 : pyLen (cur ++ [w]) ≤ limit
    · exact ih _ (Or.inr (Or.inl h1)) c (by rwa [if_pos h1] at hc)
    · rw [if_neg h1] at hc
      cases cur with
      | nil =>
        refine ih [w] ?_ c (by simpa using hc)
        right; right
        exact ⟨w, rfl, by simpa [pyLen] using h1⟩
      | cons a as =>
        rcases (by simpa using hc : c = a :: as ∨ c ∈ greedyPackAux limit [w] ws) with h | h
        · subst h
          rcases hcur with h | h | h
          · simp at h
          · exact Or.inl h
          · exact Or.inr h
        · refine ih [w] ?_ c h
          by_cases h2 : w.length ≤ limit
          · exact Or.inr (Or.inl (by simpa [pyLen] using h2))
          · right; right
            exact ⟨w, rfl, by omega⟩

/-! ### The merge pass is the identity on greedy output

Every boundary between adjacent greedy chunks exists because the first word of
the later chunk did not fit after the earlier chunk, so joining any two
adjacent chunks always exceeds the cap and _merge_short_chunks never finds a
legal merge on pipeline input. -/

theorem mergeLoop_no_merge (maxChars minChars : Nat) :
    ∀ (l acc : List (List String)),
      List.Chain' (fun a b => maxChars < combLen a b) l →
      (∀ p ∈ acc.head?, ∀ c ∈ l.head?, maxChars < combLen p c) →
      mergeLoop maxChars minChars acc l = acc.reverse ++ l := by
  intro l
  induction l with
  | nil =>
    intro acc _ _
    simp [mergeLoop]
  | cons c l ih =>
    intro acc hchain hacc
    cases l with
    | nil =>
      cases acc with
      | nil => simp [mergeLoop]
      | cons p acc2 =>
        have hpc : maxChars < combLen p c := hacc p (by simp) c (by simp)
        have hcond : ¬ (pyLen c < minChars ∧ combLen p c ≤ maxChars) := by
          rintro ⟨-, h2⟩
          omega
        simp only [mergeLoop, if_neg hcond]
        simp [mergeLoop]
    | cons n rest =>
      have hcn : maxChars < combLen c n := (List.chain'_cons.mp hchain).1
      have hcond1 : ¬ (pyLen c < minChars ∧ combLen c n ≤ maxChars) := by
        rintro ⟨-, h2⟩
        omega
      have htail : List.Chain' (fun a b => maxChars < combLen a b) (n :: rest) :=
        (List.chain'_cons.mp hchain).2
      have hhead : ∀ p ∈ (c :: acc).head?, ∀ x ∈ (n :: rest).head?, maxChars < combLen p x := by
        intro p hp x hx
        simp only [List.head?_cons, Option.mem_def, Option.some.injEq] at hp hx
        rw [← hp, ← hx]
        exact hcn
      cases acc with
      | nil =>
        simp only [mergeLoop, if_neg hcond1]
        rw [ih [c] htail hhead]
        simp
      | cons p acc2 =>
        have hpc : maxChars < combLen p c := hacc p (by simp) c (by simp)
        have hcond2 : ¬ (pyLen c < minChars ∧ combLen p c ≤ maxChars) := by
          rintro ⟨-, h2⟩
          omega
        simp only [mergeLoop, if_neg hcond1, if_neg hcond2]
        rw [ih (c :: p :: acc2) htail (by
          intro q hq x hx
          simp only [List.head?_cons, Option.mem_def, Option.some.injEq] at hq hx
          rw [← hq, ← hx]
          exact hcn)]
        simp

theorem merge_short_chunks_of_chain (chunks : List (List String)) (maxChars minChars : Nat)
    (h : List.Chain' (fun a b => maxChars < combLen a b) chunks) :
    merge_short_chunks chunks maxChars minChars = chunks := by
  unfold merge_short_chunks
  by_cases hl : chunks.length ≤ 1
  · rw [if_pos hl]
  · rw [if_neg hl, mergeLoop_no_merge maxChars minChars chunks [] h (by simp)]
    simp

/-! ### The chunk word lists of the pipeline -/

theorem chunkWords_eq_greedy (text : String) (mcl ml : Nat) :
    chunkWords text mcl ml = greedyPack (mcl * ml) (pyWords text) := by
  unfold chunkWords
  by_cases h : (pyWords text).isEmpty
  · rw [if_pos h]
    have he : pyWords text = [] := by simpa using h
    simp [he, greedyPack, greedyPackAux]
  · rw [if_neg h]
    exact merge_short_chunks_of_chain _ _ _ (greedyPackAux_chain (mcl * ml) (pyWords text) [])

theorem chunkWords_flatten (text : String) (mcl ml : Nat) :
    (chunkWords text mcl ml).flatten = pyWords text := by
  rw [chunkWords_eq_greedy]
  simpa using greedyPackAux_flatten (mcl * ml) (pyWords text) []

theorem chunkWords_ne_nil (text : String) (mcl ml : Nat) :
    ∀ c ∈ chunkWords text mcl ml, c ≠ [] := by
  rw [chunkWords_eq_greedy]
  exact greedyPackAux_ne_nil (mcl * ml) (pyWords text) []

theorem chunkWords_chain (text : String) (mcl ml : Nat) :
    List.Chain' (fun a b => mcl * ml < combLen a b) (chunkWords text mcl ml) := by
  rw [chunkWords_eq_greedy]
  exact greedyPackAux_chain (mcl * ml) (pyWords text) []

theorem chunkWords_bounds (text : String) (mcl ml : Nat) :
    ∀ c ∈ chunkWords text mcl ml, pyLen c ≤ mcl * ml ∨ ∃ w, c = [w] ∧ mcl * ml < w.length := by
  rw [chunkWords_eq_greedy]
  exact greedyPackAux_bounds (mcl * ml) (pyWords text) [] (Or.inl rfl)

theorem mem_pyWords_of_mem_chunkWords {text : String} {mcl ml : Nat} {c : List String}
    {w : String} (hc : c ∈ chunkWords text mcl ml) (hw : w ∈ c) : w ∈ pyWords text := by
  rw [← chunkWords_flatten text mcl ml]
  exact List.mem_flatten.mpr ⟨c, hc, hw⟩

/-! ### Lemmas on line formatting -/

theorem bestSplit_bounds (ws : List String) (maxLine : Nat) (h2 : 2 ≤ ws.length) :
    1 ≤ bestSplit ws maxLine ∧ bestSplit ws maxLine < ws.length := by
  unfold bestSplit
  have key : ∀ (cands : List Nat) (st : Nat × Option Nat),
      (∀ x ∈ cands, 1 ≤ x ∧ x < ws.length) → 1 ≤ st.1 ∧ st.1 < ws.length →
      1 ≤ (cands.foldl (bestSplitStep ws maxLine) st).1 ∧
        (cands.foldl (bestSplitStep ws maxLine) st).1 < ws.length := by
    intro cands
    induction cands with
    | nil => intro st _ hst; exact hst
    | cons x xs ih =>
      intro st hc hst
      rw [List.foldl_cons]
      refine ih _ (fun y hy => hc y (by simp [hy])) ?_
      unfold bestSplitStep
      by_cases hcond : pyLen (ws.take x) ≤ maxLine ∧ pyLen (ws.drop x) ≤ maxLine
      · rw [if_pos hcond]
        rcases st with ⟨s1, s2⟩
        cases s2 with
        | none => exact hc x (by simp)
        | some bd =>
          dsimp only
          by_cases hlt : absDiff (pyLen (ws.take x)) (pyLen (ws.drop x)) < bd
          · rw [if_pos hlt]
            exact hc x (by simp)
          · rw [if_neg hlt]
            exact hst
      · rw [if_neg hcond]
        exact hst
  refine key _ _ ?_ ?_
  · intro x hx
    have hm := List.mem_range'_1.mp hx
    have hmid : ws.length / 2 < ws.length := by omega
    omega
  · constructor
    · omega
    · omega

theorem format_chunk_lines_flatten (chunk : List String) (maxLine : Nat) (h : chunk ≠ []) :
    (format_chunk_lines chunk maxLine).flatten = chunk ∧
      ∀ l ∈ format_chunk_lines chunk maxLine, l ≠ [] := by
  unfold format_chunk_lines
  by_cases h1 : pyLen chunk ≤ maxLine
  · rw [if_pos h1]
    exact ⟨by simp, by simpa using h⟩
  · rw [if_neg h1]
    by_cases h2 : (greedyPackAux maxLine [] chunk).length ≤ 2
    · rw [if_pos h2]
      exact ⟨by simpa using greedyPackAux_flatten maxLine chunk [],
        greedyPackAux_ne_nil maxLine chunk []⟩
    · rw [if_neg h2]
      have hlen3 : 3 ≤ chunk.length := by
        have hj := greedyPackAux_flatten maxLine chunk ([] : List String)
        have hcount := length_le_length_flatten (greedyPackAux maxLine [] chunk)
          (greedyPackAux_ne_nil maxLine chunk [])
        rw [hj] at hcount
        simp only [List.nil_append] at hcount
        omega
      have hb := bestSplit_bounds chunk maxLine (by omega)
      refine ⟨by simp, ?_⟩
      intro l hl
      rcases (by simpa using hl :
          l = chunk.take (bestSplit chunk maxLine) ∨ l = chunk.drop (bestSplit chunk maxLine))
          with hv | hv
      · subst hv
        simp only [ne_eq, List.take_eq_nil_iff]
        push_neg
        exact ⟨by omega, h⟩
      · subst hv
        simp only [ne_eq, List.drop_eq_nil_iff]
        omega

theorem format_chunk_lines_singleton (w : String) (maxLine : Nat) :
    format_chunk_lines [w] maxLine = [[w]] := by
  unfold format_chunk_lines
  by_cases h : pyLen [w] ≤ maxLine
  · rw [if_pos h]
  · rw [if_neg h]
    have hg : greedyPackAux maxLine [] [w] = [[w]] := by
      simp [greedyPackAux, h]
    rw [hg]
    simp

/-! ### Claim C1: word preservation -/

/-- C1.  For every slide transcript and every max_chars_per_line and max_lines
setting, joining the display texts of all chunks produced by
_split_text_into_subtitle_chunks with single spaces, after replacing the
inserted line breaks by spaces, yields exactly the whitespace-normalised form
of the transcript: no word is dropped, duplicated, truncated or reordered by
chunking, short-chunk merging or line formatting. -/
theorem word_preservation (text : String) (mcl ml : Nat) :
    joinSep " " ((split_text_into_subtitle_chunks text mcl ml).map unwrapNewlines) =
      normalizeText text := by
  unfold split_text_into_subtitle_chunks normalizeText
  rw [List.map_map]
  have hmap : ((chunkWords text mcl ml).map
      (unwrapNewlines ∘ fun c => displayText (format_chunk_lines c mcl))) =
      (chunkWords text mcl ml).map spaceJoin := by
    apply List.map_congr_left
    intro c hc
    have hcne := chunkWords_ne_nil text mcl ml c hc
    obtain ⟨hfl, hne⟩ := format_chunk_lines_flatten c mcl hcne
    have hwords : ∀ l ∈ format_chunk_lines c mcl, ∀ w ∈ l, ∀ ch ∈ w.data,
        ch.isWhitespace = false := by
      intro l hl w hw ch hch
      have hwmem : w ∈ pyWords text := by
        refine mem_pyWords_of_mem_chunkWords hc ?_
        rw [← hfl]
        exact List.mem_flatten.mpr ⟨l, hl, hw⟩
      exact (pyWords_words text w hwmem).2 ch hch
    show unwrapNewlines (displayText (format_chunk_lines c mcl)) = spaceJoin c
    rw [unwrap_displayText (format_chunk_lines c mcl) hne hwords, hfl]
  rw [hmap, joinSep_map_spaceJoin (chunkWords text mcl ml) (chunkWords_ne_nil text mcl ml),
    chunkWords_flatten]

/-! ### Claim C4: chunk size bounds and merge exhaustion -/

/-- C4.  Every chunk string produced by the chunking algorithm has length at
most max_chars_per_line * max_lines, except a chunk consisting of a single
word longer than that cap, which is kept intact and unsplit; and after the
merge pass no two adjacent chunks admit a legal merge at all (their joined
length always exceeds the cap), so in particular no chunk shorter than
min_chunk_chars = 15 remains when merging it with its following or preceding
chunk would still fit within the cap. -/
theorem chunk_bounds (text : String) (mcl ml : Nat) :
    (∀ s ∈ split_text_into_subtitle_chunks text mcl ml,
        s.length ≤ mcl * ml ∨ ∃ w, s = w ∧ w ∈ pyWords text ∧ mcl * ml < w.length) ∧
      List.Chain' (fun a b =>
        ¬ (pyLen a < 15 ∧ combLen a b ≤ mcl * ml) ∧
          ¬ (pyLen b < 15 ∧ combLen a b ≤ mcl * ml)) (chunkWords text mcl ml) := by
  constructor
  · intro s hs
    unfold split_text_into_subtitle_chunks at hs
    obtain ⟨c, hc, rfl⟩ := List.mem_map.mp hs
    have hcne := chunkWords_ne_nil text mcl ml c hc
    obtain ⟨hfl, hne⟩ := format_chunk_lines_flatten c mcl hcne
    have hlen : (displayText (format_chunk_lines c mcl)).length = pyLen c := by
      rw [length_displayText (format_chunk_lines c mcl) hne, hfl]
    rcases chunkWords_bounds text mcl ml c hc with h | ⟨w, hw, hwlen⟩
    · left
      omega
    · right
      refine ⟨w, ?_, ?_, hwlen⟩
      · rw [hw, format_chunk_lines_singleton]
        rfl
      · exact mem_pyWords_of_mem_chunkWords hc (by simp [hw])
  · refine (chunkWords_chain text mcl ml).imp ?_
    intro a b h
    exact ⟨fun hh => absurd hh.2 (by omega), fun hh => absurd hh.2 (by omega)⟩

/-! ### Lemmas on the slide timing -/

theorem length_slideSrtEntries (t : String) (cur D : ℚ) (sidx : Nat) :
    (slideSrtEntries t cur D sidx).length = (split_text_into_subtitle_chunks t 50 2).length := by
  simp [slideSrtEntries]

theorem slideSrtEntries_getD (t : String) (cur D : ℚ) (sidx j : Nat)
    (hj : j < (split_text_into_subtitle_chunks t 50 2).length) :
    (slideSrtEntries t cur D sidx).getD j default =
      { index := sidx + j
        start := cur + (j : ℚ) * chunk_duration t D
        stop := clampStop (cur + (j : ℚ) * chunk_duration t D)
          (cur + ((j : ℚ) + 1) * chunk_duration t D) (cur + D)
        text := (split_text_into_subtitle_chunks t 50 2).getD j "" } := by
  unfold slideSrtEntries
  rw [List.getD_eq_getElem?_getD, List.getElem?_map, List.getElem?_range hj]
  rfl

theorem clampStop_eq (cur d D j : ℚ) :
    clampStop (cur + j * d) (cur + (j + 1) * d) (cur + D) =
      min (cur + j * d + rclamp d) (cur + D) := by
  have hdur : cur + (j + 1) * d - (cur + j * d) = d := by ring
  simp only [clampStop, rclamp, hdur]
  by_cases h1 : d < 3 / 2
  · rw [if_pos h1, if_pos h1]
  · rw [if_neg h1, if_neg h1]
    by_cases h2 : 6 < d
    · rw [if_pos h2, if_pos h2]
    · rw [if_neg h2, if_neg h2]
      have h3 : cur + (j + 1) * d = cur + j * d + d := by ring
      rw [h3]

theorem rclamp_le_self (d : ℚ) (h : 3 / 2 ≤ d) : rclamp d ≤ d := by
  unfold rclamp
  rw [if_neg (not_lt.mpr h)]
  split
  · linarith
  · exact le_refl d

theorem chunk_duration_nonneg (t : String) (D : ℚ) (hD : 0 ≤ D) :
    0 ≤ chunk_duration t D := by
  simp only [chunk_duration]
  split
  · exact hD
  · exact div_nonneg hD (by positivity)

theorem chunk_duration_mul (t : String) (D : ℚ)
    (hne : ¬ (split_text_into_subtitle_chunks t 50 2).isEmpty) :
    ((split_text_into_subtitle_chunks t 50 2).length : ℚ) * chunk_duration t D = D := by
  simp only [chunk_duration]
  rw [if_neg hne]
  have hpos : 0 < (split_text_into_subtitle_chunks t 50 2).length := by
    cases h : split_text_into_subtitle_chunks t 50 2 with
    | nil => rw [h] at hne; simp at hne
    | cons a l => simp
  have hne0 : ((split_text_into_subtitle_chunks t 50 2).length : ℚ) ≠ 0 := by
    have hq : (split_text_into_subtitle_chunks t 50 2).length ≠ 0 := by omega
    exact_mod_cast hq
  field_simp

/-! ### Claim C2: the slide-boundary clamp applies to every chunk -/

/-- C2 amended.  During time allocation every chunk of a slide, final or not,
has its end time clamped so as not to exceed the slide start plus the audio
duration: entry j has start = slide_start + j * d and
stop = min (start + clamp(d, 1.5, 6.0), slide_start + D) with d the equal
share.  When d is at least 1.5 seconds the boundary clamp is a no-op for
every chunk, so each chunk keeps end = start + clamp(d); overlaps introduced
by the 1.5 second minimum are not corrected: the start of chunk j stays
slide_start + j * d regardless of the previous chunk. -/
theorem time_allocation (t : String) (cur D : ℚ) (sidx j : Nat)
    (hj : j < (split_text_into_subtitle_chunks t 50 2).length) :
    ((slideSrtEntries t cur D sidx).getD j default).start =
        cur + (j : ℚ) * chunk_duration t D ∧
      ((slideSrtEntries t cur D sidx).getD j default).stop =
        min (cur + (j : ℚ) * chunk_duration t D + rclamp (chunk_duration t D)) (cur + D) ∧
      (3 / 2 ≤ chunk_duration t D →
        ((slideSrtEntries t cur D sidx).getD j default).stop =
          cur + (j : ℚ) * chunk_duration t D + rclamp (chunk_duration t D)) := by
  rw [slideSrtEntries_getD t cur D sidx j hj]
  refine ⟨rfl, clampStop_eq cur (chunk_duration t D) D (j : ℚ), ?_⟩
  intro h32
  rw [clampStop_eq cur (chunk_duration t D) D (j : ℚ)]
  apply min_eq_left
  have hCne : ¬ (split_text_into_subtitle_chunks t 50 2).isEmpty := by
    cases h : split_text_into_subtitle_chunks t 50 2 with
    | nil => rw [h] at hj; simp at hj
    | cons a l => simp
  have hmul := chunk_duration_mul t D hCne
  have hrc := rclamp_le_self (chunk_duration t D) h32
  have hd0 : 0 ≤ chunk_duration t D := le_trans (by norm_num) h32
  have hj1 : (j : ℚ) + 1 ≤ ((split_text_into_subtitle_chunks t 50 2).length : ℚ) := by
    have : j + 1 ≤ (split_text_into_subtitle_chunks t 50 2).length := hj
    exact_mod_cast this
  nlinarith [mul_le_mul_of_nonneg_right hj1 hd0]

/-- Witness for time_allocation at a one-chunk slide. -/
theorem time_allocation_witness :
    0 < (split_text_into_subtitle_chunks "Hello world." 50 2).length ∧
      ((slideSrtEntries "Hello world." 0 2 1).getD 0 default).stop =
        min (0 + ((0 : Nat) : ℚ) * chunk_duration "Hello world." 2 +
          rclamp (chunk_duration "Hello world." 2)) (0 + 2) :=
  ⟨by decide, (time_allocation "Hello world." 0 2 1 0 (by decide)).2.1⟩

/-- C2 counterexample.  A slide whose transcript is two sixty-letter words
splits into two chunks; with audio duration one second the equal share is one
half, so the claimed end of the first (non-final) chunk is
start + clamp(0.5, 1.5, 6.0) = 1.5, but the code cuts it to the slide
boundary 1.0: a non-final chunk does not keep its clamped end as-is. -/
theorem c2_counterexample :
    (split_text_into_subtitle_chunks bigT 50 2).length = 2 ∧
      chunk_duration bigT 1 = 1 / 2 ∧
      rclamp (1 / 2 : ℚ) = 3 / 2 ∧
      ((slideSrtEntries bigT 0 1 1).getD 0 default).stop = 1 ∧
      (1 : ℚ) ≠ 0 + (0 : ℚ) * (1 / 2) + 3 / 2 := by
  have hlen : (split_text_into_subtitle_chunks bigT 50 2).length = 2 := by decide
  have hcd : chunk_duration bigT 1 = 1 / 2 := by
    unfold chunk_duration
    rw [if_neg (by decide)]
    rw [hlen]
    norm_num
  have hrc : rclamp (1 / 2 : ℚ) = 3 / 2 := by
    unfold rclamp
    rw [if_pos (by norm_num)]
  refine ⟨hlen, hcd, hrc, ?_, by norm_num⟩
  rw [slideSrtEntries_getD bigT 0 1 1 0 (by rw [hlen]; norm_num),
    clampStop_eq 0 (chunk_duration bigT 1) 1 ((0 : Nat) : ℚ), hcd, hrc]
  norm_num [min_def]

/-! ### Per-slide bounds and within-slide chain -/

theorem slideSrtEntries_mem_bounds (t : String) (cur D : ℚ) (sidx : Nat) (hD : 0 ≤ D) :
    ∀ e ∈ slideSrtEntries t cur D sidx, cur ≤ e.start ∧ e.stop ≤ cur + D := by
  intro e he
  simp only [slideSrtEntries, List.mem_map, List.mem_range] at he
  obtain ⟨j, hj, rfl⟩ := he
  constructor
  · show cur ≤ cur + (j : ℚ) * chunk_duration t D
    have hcd := chunk_duration_nonneg t D hD
    have hmul : 0 ≤ (j : ℚ) * chunk_duration t D := mul_nonneg (by positivity) hcd
    linarith
  · show clampStop (cur + (j : ℚ) * chunk_duration t D)
      (cur + ((j : ℚ) + 1) * chunk_duration t D) (cur + D) ≤ cur + D
    simp only [clampStop]
    exact min_le_right _ _

theorem slideSrtEntries_chain (t : String) (cur D : ℚ) (sidx : Nat)
    (h : (split_text_into_subtitle_chunks t 50 2).length ≤ 1 ∨ 3 / 2 ≤ chunk_duration t D) :
    List.Chain' (fun a b => a.stop ≤ b.start) (slideSrtEntries t cur D sidx) := by
  rcases h with h | h
  · have hlen : (slideSrtEntries t cur D sidx).length ≤ 1 := by
      rw [length_slideSrtEntries]
      exact h
    cases hE : slideSrtEntries t cur D sidx with
    | nil => simp
    | cons a l =>
      cases l with
      | nil => simp
      | cons b m =>
        rw [hE] at hlen
        simp at hlen
  · rw [List.chain'_iff_get]
    intro i hi
    simp only [slideSrtEntries, List.get_eq_getElem, List.getElem_map, List.getElem_range]
    show clampStop (cur + (i : ℚ) * chunk_duration t D)
        (cur + ((i : ℚ) + 1) * chunk_duration t D) (cur + D) ≤
      cur + ((i + 1 : Nat) : ℚ) * chunk_duration t D
    rw [clampStop_eq cur (chunk_duration t D) D (i : ℚ)]
    have hrc := rclamp_le_self (chunk_duration t D) h
    have hcast : ((i + 1 : Nat) : ℚ) = (i : ℚ) + 1 := by push_cast; ring
    rw [hcast]
    calc min (cur + (i : ℚ) * chunk_duration t D + rclamp (chunk_duration t D)) (cur + D)
        ≤ cur + (i : ℚ) * chunk_duration t D + rclamp (chunk_duration t D) := min_le_left _ _
      _ ≤ cur + (i : ℚ) * chunk_duration t D + chunk_duration t D := by linarith
      _ = cur + ((i : ℚ) + 1) * chunk_duration t D := by ring

/-! ### Step equations of the assembly loop -/

theorem createVideoAux_nil (tb : ℚ) (N : Nat) (ts : List String) (i : Nat) (t : ℚ)
    (sidx : Nat) :
    createVideoAux tb N ts [] i t sidx = { entries := [], currentTime := t, clips := [] } := rfl

theorem createVideoAux_cons_entries (tb : ℚ) (N : Nat) (ts : List String) (img : String)
    (d : ℚ) (rest : List (String × ℚ)) (i : Nat) (t : ℚ) (sidx : Nat) :
    (createVideoAux tb N ts ((img, d) :: rest) i t sidx).entries =
      (if i < ts.length then slideSrtEntries (ts.getD i "") t d sidx else []) ++
        (createVideoAux tb N ts rest (i + 1)
          (t + (if ¬ i = N - 1 ∧ 0 < tb then d + tb else d))
          (sidx + (if i < ts.length then slideSrtEntries (ts.getD i "") t d sidx
            else []).length)).entries := rfl

theorem createVideoAux_cons_currentTime (tb : ℚ) (N : Nat) (ts : List String) (img : String)
    (d : ℚ) (rest : List (String × ℚ)) (i : Nat) (t : ℚ) (sidx : Nat) :
    (createVideoAux tb N ts ((img, d) :: rest) i t sidx).currentTime =
      (createVideoAux tb N ts rest (i + 1)
        (t + (if ¬ i = N - 1 ∧ 0 < tb then d + tb else d))
        (sidx + (if i < ts.length then slideSrtEntries (ts.getD i "") t d sidx
          else []).length)).currentTime := rfl

theorem createVideoAux_cons_clips (tb : ℚ) (N : Nat) (ts : List String) (img : String)
    (d : ℚ) (rest : List (String × ℚ)) (i : Nat) (t : ℚ) (sidx : Nat) :
    (createVideoAux tb N ts ((img, d) :: rest) i t sidx).clips =
      (img, (if ¬ i = N - 1 ∧ 0 < tb then d + tb else d)) ::
        (createVideoAux tb N ts rest (i + 1)
          (t + (if ¬ i = N - 1 ∧ 0 < tb then d + tb else d))
          (sidx + (if i < ts.length then slideSrtEntries (ts.getD i "") t d sidx
            else []).length)).clips := rfl

/-! ### The timeline chain across slides -/

theorem timelineBlocksAux_nil (tb : ℚ) (N : Nat) (ts : List String) (i : Nat) (t : ℚ)
    (sidx : Nat) : timelineBlocksAux tb N ts [] i t sidx = [] := rfl

theorem timelineBlocksAux_cons (tb : ℚ) (N : Nat) (ts : List String) (img : String) (d : ℚ)
    (rest : List (String × ℚ)) (i : Nat) (t : ℚ) (sidx : Nat) :
    timelineBlocksAux tb N ts ((img, d) :: rest) i t sidx =
      (if i < ts.length then slideSrtEntries (ts.getD i "") t d sidx else []) ::
        timelineBlocksAux tb N ts rest (i + 1)
          (t + (if ¬ i = N - 1 ∧ 0 < tb then d + tb else d))
          (sidx + (if i < ts.length then slideSrtEntries (ts.getD i "") t d sidx
            else []).length) := rfl

theorem timelineBlocksAux_length (tb : ℚ) (N : Nat) (ts : List String) :
    ∀ (lst : List (String × ℚ)) (i : Nat) (t : ℚ) (sidx : Nat),
      (timelineBlocksAux tb N ts lst i t sidx).length = lst.length := by
  intro lst
  induction lst with
  | nil =>
    intro i t sidx
    rfl
  | cons hd rest ih =>
    rcases hd with ⟨img, d⟩
    intro i t sidx
    rw [timelineBlocksAux_cons]
    simp [ih]

theorem createVideoAux_entries_eq_flatten (tb : ℚ) (N : Nat) (ts : List String) :
    ∀ (lst : List (String × ℚ)) (i : Nat) (t : ℚ) (sidx : Nat),
      (createVideoAux tb N ts lst i t sidx).entries =
        (timelineBlocksAux tb N ts lst i t sidx).flatten := by
  intro lst
  induction lst with
  | nil =>
    intro i t sidx
    rw [createVideoAux_nil, timelineBlocksAux_nil]
    rfl
  | cons hd rest ih =>
    rcases hd with ⟨img, d⟩
    intro i t sidx
    rw [createVideoAux_cons_entries, timelineBlocksAux_cons, List.flatten_cons, ih]

theorem createVideoAux_start_bound (tb : ℚ) (N : Nat) (ts : List String) :
    ∀ (lst : List (String × ℚ)) (i : Nat) (t : ℚ) (sidx : Nat),
      (∀ k (hk : k < lst.length), 0 ≤ (lst.get ⟨k, hk⟩).2) →
      ∀ e ∈ (createVideoAux tb N ts lst i t sidx).entries, t ≤ e.start := by
  intro lst
  induction lst with
  | nil =>
    intro i t sidx _ e he
    rw [createVideoAux_nil] at he
    simp at he
  | cons hd rest ih =>
    rcases hd with ⟨img, d⟩
    intro i t sidx hd0 e he
    have hdpos : 0 ≤ d := by simpa using hd0 0 (by simp)
    have hd0' : ∀ k (hk : k < rest.length), 0 ≤ (rest.get ⟨k, hk⟩).2 := by
      intro k hk
      have := hd0 (k + 1) (by simpa using Nat.succ_lt_succ hk)
      simpa using this
    have hgap : d ≤ (if ¬ i = N - 1 ∧ 0 < tb then d + tb else d) := by
      split
      · linarith
      · exact le_refl d
    rw [createVideoAux_cons_entries] at he
    rcases List.mem_append.mp he with h | h
    · by_cases hi : i < ts.length
      · rw [if_pos hi] at h
        exact (slideSrtEntries_mem_bounds (ts.getD i "") t d sidx hdpos e h).1
      · rw [if_neg hi] at h
        simp at h
    · have := ih (i + 1) _ _ hd0' e h
      linarith

theorem timelineBlocksAux_cross (tb : ℚ) (N : Nat) (ts : List String) :
    ∀ (lst : List (String × ℚ)) (i : Nat) (t : ℚ) (sidx : Nat),
      (∀ k (hk : k < lst.length), 0 ≤ (lst.get ⟨k, hk⟩).2) →
      ∀ (bi bj : Nat) (b1 b2 : List SrtEntry), bi < bj →
        (timelineBlocksAux tb N ts lst i t sidx)[bi]? = some b1 →
        (timelineBlocksAux tb N ts lst i t sidx)[bj]? = some b2 →
        ∀ e1 ∈ b1, ∀ e2 ∈ b2, e1.stop ≤ e2.start := by
  intro lst
  induction lst with
  | nil =>
    intro i t sidx _ bi bj b1 b2 _ h1 _
    rw [timelineBlocksAux_nil] at h1
    simp at h1
  | cons hd rest ih =>
    rcases hd with ⟨img, d⟩
    intro i t sidx hd0 bi bj b1 b2 hlt h1 h2 e1 he1 e2 he2
    have hdpos : 0 ≤ d := by simpa using hd0 0 (by simp)
    have hd0' : ∀ k (hk : k < rest.length), 0 ≤ (rest.get ⟨k, hk⟩).2 := by
      intro k hk
      have := hd0 (k + 1) (by simpa using Nat.succ_lt_succ hk)
      simpa using this
    rw [timelineBlocksAux_cons] at h1 h2
    cases bj with
    | zero => omega
    | succ bj' =>
      rw [List.getElem?_cons_succ] at h2
      cases bi with
      | zero =>
        have hb1 : b1 = (if i < ts.length then slideSrtEntries (ts.getD i "") t d sidx
            else []) := by
          rw [List.getElem?_cons_zero] at h1
          exact (Option.some.inj h1).symm
        have hstop : e1.stop ≤ t + d := by
          rw [hb1] at he1
          by_cases hi : i < ts.length
          · rw [if_pos hi] at he1
            exact (slideSrtEntries_mem_bounds (ts.getD i "") t d sidx hdpos e1 he1).2
          · rw [if_neg hi] at he1
            simp at he1
        have he2mem : e2 ∈ (createVideoAux tb N ts rest (i + 1)
            (t + (if ¬ i = N - 1 ∧ 0 < tb then d + tb else d))
            (sidx + (if i < ts.length then slideSrtEntries (ts.getD i "") t d sidx
              else []).length)).entries := by
          rw [createVideoAux_entries_eq_flatten]
          exact List.mem_flatten.mpr ⟨b2, List.getElem?_mem h2, he2⟩
        have hstart := createVideoAux_start_bound tb N ts rest (i + 1)
          (t + (if ¬ i = N - 1 ∧ 0 < tb then d + tb else d))
          (sidx + (if i < ts.length then slideSrtEntries (ts.getD i "") t d sidx
            else []).length) hd0' e2 he2mem
        have hgap : d ≤ (if ¬ i = N - 1 ∧ 0 < tb then d + tb else d) := by
          split
          · linarith
          · exact le_refl d
        linarith
      | succ bi' =>
        rw [List.getElem?_cons_succ] at h1
        exact ih (i + 1) _ _ hd0' bi' bj' b1 b2 (by omega) h1 h2 e1 he1 e2 he2

theorem timelineBlocksAux_within (tb : ℚ) (N : Nat) (ts : List String) :
    ∀ (lst : List (String × ℚ)) (i : Nat) (t : ℚ) (sidx : Nat) (bi : Nat)
      (b : List SrtEntry) (dv : String × ℚ),
      (timelineBlocksAux tb N ts lst i t sidx)[bi]? = some b → lst[bi]? = some dv →
      ((split_text_into_subtitle_chunks (ts.getD (i + bi) "") 50 2).length ≤ 1 ∨
        3 / 2 ≤ chunk_duration (ts.getD (i + bi) "") dv.2) →
      List.Chain' (fun a b => a.stop ≤ b.start) b := by
  intro lst
  induction lst with
  | nil =>
    intro i t sidx bi b dv h1 _ _
    rw [timelineBlocksAux_nil] at h1
    simp at h1
  | cons hd rest ih =>
    rcases hd with ⟨img, d⟩
    intro i t sidx bi b dv h1 h2 hcond
    rw [timelineBlocksAux_cons] at h1
    cases bi with
    | zero =>
      have hdv : dv = (img, d) := by
        rw [List.getElem?_cons_zero] at h2
        exact (Option.some.inj h2).symm
      have hb : b = (if i < ts.length then slideSrtEntries (ts.getD i "") t d sidx
          else []) := by
        rw [List.getElem?_cons_zero] at h1
        exact (Option.some.inj h1).symm
      rw [hb]
      by_cases hi : i < ts.length
      · rw [if_pos hi]
        apply slideSrtEntries_chain
        have hiz : i + 0 = i := by omega
        rw [hiz, hdv] at hcond
        exact hcond
      · rw [if_neg hi]
        simp
    | succ bi' =>
      rw [List.getElem?_cons_succ] at h1
      rw [List.getElem?_cons_succ] at h2
      have hidx : i + (bi' + 1) = (i + 1) + bi' := by omega
      rw [hidx] at hcond
      exact ih (i + 1) _ _ bi' b dv h1 h2 hcond

/-! ### Claim C3: chunks can overlap within a slide -/

/-- C3 amended.  The subtitle timeline is exactly the concatenation of one
entry block per zipped slide.  Across slide boundaries entries never overlap:
for nonnegative audio durations, every entry of an earlier slide ends no
later than any entry of a later slide starts, whatever the other slides of
the deck look like.  Within a slide whose own equal share D / C is at least
1.5 seconds (or which has at most one chunk) consecutive entries never
overlap, again regardless of the shares of the other slides.  When a slide
has share below 1.5 seconds its own consecutive entries can overlap, as the
counterexample shows. -/
theorem timeline_no_overlap (imgs : List String) (ds : List ℚ) (ts : List String) (tb : ℚ)
    (hd : ∀ k (hk : k < ds.length), 0 ≤ ds.get ⟨k, hk⟩) :
    (create_video_with_subtitles imgs ds ts tb).entries =
        (timelineBlocks imgs ds ts tb).flatten ∧
      (timelineBlocks imgs ds ts tb).length = min imgs.length ds.length ∧
      (∀ (bi bj : Nat) (b1 b2 : List SrtEntry), bi < bj →
        (timelineBlocks imgs ds ts tb)[bi]? = some b1 →
        (timelineBlocks imgs ds ts tb)[bj]? = some b2 →
        ∀ e1 ∈ b1, ∀ e2 ∈ b2, e1.stop ≤ e2.start) ∧
      (∀ (bi : Nat) (b : List SrtEntry) (dv : ℚ),
        (timelineBlocks imgs ds ts tb)[bi]? = some b → ds[bi]? = some dv →
        ((split_text_into_subtitle_chunks (ts.getD bi "") 50 2).length ≤ 1 ∨
          3 / 2 ≤ chunk_duration (ts.getD bi "") dv) →
        List.Chain' (fun a b => a.stop ≤ b.start) b) := by
  unfold create_video_with_subtitles timelineBlocks
  have hzd : ∀ k (hk : k < (imgs.zip ds).length), 0 ≤ ((imgs.zip ds).get ⟨k, hk⟩).2 := by
    intro k hk
    have hk2 : k < ds.length := by
      have hkz := hk
      rw [List.length_zip] at hkz
      omega
    have hk1 : k < imgs.length := by
      have hkz := hk
      rw [List.length_zip] at hkz
      omega
    have hz : (imgs.zip ds).get ⟨k, hk⟩ = (imgs.get ⟨k, hk1⟩, ds.get ⟨k, hk2⟩) := by
      simp [List.get_eq_getElem, List.getElem_zip]
    rw [hz]
    exact hd k hk2
  refine ⟨?_, ?_, ?_, ?_⟩
  · exact createVideoAux_entries_eq_flatten tb imgs.length ts (imgs.zip ds) 0 0 1
  · rw [timelineBlocksAux_length]
    exact List.length_zip imgs ds
  · intro bi bj b1 b2 hlt h1 h2 e1 he1 e2 he2
    exact timelineBlocksAux_cross tb imgs.length ts (imgs.zip ds) 0 0 1 hzd bi bj b1 b2 hlt
      h1 h2 e1 he1 e2 he2
  · intro bi b dv h1 h2 hcond
    have hbi : bi < (imgs.zip ds).length := by
      have hsome := (List.getElem?_eq_some_iff.mp h1).1
      rw [timelineBlocksAux_length] at hsome
      exact hsome
    have hbi1 : bi < imgs.length := by
      rw [List.length_zip] at hbi
      omega
    have hbi2 : bi < ds.length := by
      rw [List.length_zip] at hbi
      omega
    have hzip : (imgs.zip ds)[bi]? = some (imgs.get ⟨bi, hbi1⟩, dv) := by
      obtain ⟨h2b, h2e⟩ := List.getElem?_eq_some_iff.mp h2
      apply List.getElem?_eq_some_iff.mpr
      refine ⟨hbi, ?_⟩
      rw [List.getElem_zip]
      rw [← h2e]
      simp [List.get_eq_getElem]
    exact timelineBlocksAux_within tb imgs.length ts (imgs.zip ds) 0 0 1 bi b
      (imgs.get ⟨bi, hbi1⟩, dv) h1 hzip (by simpa using hcond)

/-- Witness for timeline_no_overlap on a mixed deck: slide one is the
low-share two-chunk slide of bigT with audio duration one second, slide two
a healthy one-chunk slide; the theorem still applies, giving the block
decomposition of the produced timeline and its length. -/
theorem timeline_no_overlap_witness :
    (create_video_with_subtitles ["slide_01.png", "slide_02.png"] [1, 4]
        [bigT, "Hello world."] 1).entries =
      (timelineBlocks ["slide_01.png", "slide_02.png"] [1, 4]
        [bigT, "Hello world."] 1).flatten ∧
    (timelineBlocks ["slide_01.png", "slide_02.png"] [1, 4]
        [bigT, "Hello world."] 1).length =
      min (["slide_01.png", "slide_02.png"] : List String).length
        ([1, 4] : List ℚ).length := by
  have h := timeline_no_overlap ["slide_01.png", "slide_02.png"] [1, 4]
    [bigT, "Hello world."] 1 (by
      intro k hk
      match k, hk with
      | 0, _ => norm_num
      | 1, _ => norm_num)
  exact ⟨h.1, h.2.1⟩

/-- C3 counterexample.  The one-slide deck whose transcript is bigT with
audio duration one second produces a timeline of exactly the two entries of
slideSrtEntries bigT; the first entry ends at 1.0 while the second starts at
0.5: consecutive entries of the produced timeline do overlap. -/
theorem c3_counterexample :
    (create_video_with_subtitles ["slide_01.png"] [1] [bigT] 1).entries =
        slideSrtEntries bigT 0 1 1 ∧
      ((slideSrtEntries bigT 0 1 1).getD 0 default).stop = 1 ∧
      ((slideSrtEntries bigT 0 1 1).getD 1 default).start = 1 / 2 ∧
      ¬ (((slideSrtEntries bigT 0 1 1).getD 0 default).stop ≤
          ((slideSrtEntries bigT 0 1 1).getD 1 default).start) := by
  have htimeline : (create_video_with_subtitles ["slide_01.png"] [1] [bigT] 1).entries =
      slideSrtEntries bigT 0 1 1 := by
    unfold create_video_with_subtitles
    rw [show (["slide_01.png"] : List String).zip ([1] : List ℚ) = [("slide_01.png", 1)]
      from rfl, createVideoAux_cons_entries, createVideoAux_nil]
    rw [show (([bigT] : List String).getD 0 "") = bigT from rfl,
      if_pos (show (0 : Nat) < ([bigT] : List String).length by norm_num)]
    simp
  refine ⟨htimeline, ?_⟩
  have hlen : (split_text_into_subtitle_chunks bigT 50 2).length = 2 := by decide
  have hcd : chunk_duration bigT 1 = 1 / 2 := by
    simp only [chunk_duration]
    rw [if_neg (by decide), hlen]
    norm_num
  have h0 : ((slideSrtEntries bigT 0 1 1).getD 0 default).stop = 1 := by
    rw [slideSrtEntries_getD bigT 0 1 1 0 (by rw [hlen]; norm_num),
      clampStop_eq 0 (chunk_duration bigT 1) 1 ((0 : Nat) : ℚ), hcd]
    norm_num [rclamp, min_def]
  have h1 : ((slideSrtEntries bigT 0 1 1).getD 1 default).start = 1 / 2 := by
    rw [slideSrtEntries_getD bigT 0 1 1 1 (by rw [hlen]; norm_num)]
    show (0 : ℚ) + ((1 : Nat) : ℚ) * chunk_duration bigT 1 = 1 / 2
    rw [hcd]
    norm_num
  refine ⟨h0, h1, ?_⟩
  rw [h0, h1]
  norm_num

/-! ### Claim C5: the global clock -/

theorem createVideoAux_currentTime (tb : ℚ) (N : Nat) (ts : List String) :
    ∀ (lst : List (String × ℚ)) (i : Nat) (t : ℚ) (sidx : Nat), i + lst.length = N →
      (createVideoAux tb N ts lst i t sidx).currentTime =
        t + (lst.map Prod.snd).sum +
          ((lst.length - 1 : ℕ) : ℚ) * (if 0 < tb then tb else 0) := by
  intro lst
  induction lst with
  | nil =>
    intro i t sidx h
    rw [createVideoAux_nil]
    simp
  | cons hd rest ih =>
    rcases hd with ⟨img, d⟩
    intro i t sidx h
    rw [createVideoAux_cons_currentTime, ih (i + 1) _ _ (by simp at h ⊢; omega)]
    cases hrest : rest with
    | nil =>
      have hlast : i = N - 1 := by
        rw [hrest] at h
        simp at h
        omega
      subst hrest
      simp [hlast]
    | cons y ys =>
      have hlast : ¬ i = N - 1 := by
        rw [hrest] at h
        simp at h
        omega
      subst hrest
      by_cases htb : 0 < tb
      · rw [if_pos ⟨hlast, htb⟩, if_pos htb]
        simp only [List.length_cons, List.map_cons, List.sum_cons, Nat.add_sub_cancel]
        push_cast
        ring
      · rw [if_neg (by tauto), if_neg htb]
        simp only [List.length_cons, List.map_cons, List.sum_cons, Nat.add_sub_cancel]
        ring

/-- C5.  For a deck of n slides with audio durations ds and transition gap tb
(applied after every slide except the last), the global clock after
processing all slides equals the sum of the durations plus (n - 1) times the
gap. -/
theorem global_clock (imgs : List String) (ds : List ℚ) (ts : List String) (tb : ℚ)
    (hlen : imgs.length = ds.length) (htb : 0 ≤ tb) :
    (create_video_with_subtitles imgs ds ts tb).currentTime =
      ds.sum + ((ds.length - 1 : ℕ) : ℚ) * tb := by
  unfold create_video_with_subtitles
  have hzlen : (imgs.zip ds).length = ds.length := by
    rw [List.length_zip, hlen, Nat.min_self]
  rw [createVideoAux_currentTime tb imgs.length ts (imgs.zip ds) 0 0 1 (by omega),
    List.map_snd_zip imgs ds (by omega), hzlen]
  have hif : (if 0 < tb then tb else 0) = tb := by
    split
    · rfl
    · linarith
  rw [hif]
  ring

/-- Witness for global_clock: the three-slide scenario of the specification
with durations 2, 10 and 3 and no transition gap ends at clock 15. -/
theorem global_clock_witness :
    (create_video_with_subtitles ["slide_01.png", "slide_02.png", "slide_03.png"]
      [2, 10, 3] ["One.", "Two.", "Three."] 0).currentTime = 15 := by
  rw [global_clock ["slide_01.png", "slide_02.png", "slide_03.png"] [2, 10, 3]
    ["One.", "Two.", "Three."] 0 rfl (le_refl 0)]
  norm_num

/-! ### Claim C6: the single-chunk slide of duration two -/

/-- C6 amended.  A slide whose transcript chunks to exactly one caption and
whose audio duration lies between 1.5 and 6 seconds produces exactly one
subtitle entry spanning from the slide start to the audio end: for duration
2.0 and slide start 0.0 the single entry spans 0.0 to 2.0 (not 1.5; the
equal share 2.0 lies inside the clamp interval and the end equals the audio
end). -/
theorem single_chunk_slide (t : String) (D : ℚ) (c : String)
    (hc : split_text_into_subtitle_chunks t 50 2 = [c]) (h1 : 3 / 2 ≤ D) (h2 : D ≤ 6) :
    slideSrtEntries t 0 D 1 = [{ index := 1, start := 0, stop := D, text := c }] := by
  have hcd : chunk_duration t D = D := by
    simp only [chunk_duration, hc]
    norm_num
  have hr : rclamp D = D := by
    unfold rclamp
    rw [if_neg (not_lt.mpr h1), if_neg (not_lt.mpr h2)]
  have hstep : slideSrtEntries t 0 D 1 =
      [{ index := 1 + 0
         start := 0 + ((0 : Nat) : ℚ) * chunk_duration t D
         stop := clampStop (0 + ((0 : Nat) : ℚ) * chunk_duration t D)
           (0 + (((0 : Nat) : ℚ) + 1) * chunk_duration t D) (0 + D)
         text := (split_text_into_subtitle_chunks t 50 2).getD 0 "" }] := by
    simp only [slideSrtEntries, hc]
    rfl
  rw [hstep, hc, hcd]
  have hstop : clampStop ((0 : ℚ) + ((0 : Nat) : ℚ) * D) (0 + (((0 : Nat) : ℚ) + 1) * D)
      (0 + D) = D := by
    rw [clampStop_eq 0 D D ((0 : Nat) : ℚ), hr]
    norm_num
  rw [hstop]
  simp

/-- Witness for single_chunk_slide at the concrete one-sentence transcript. -/
theorem single_chunk_slide_witness :
    split_text_into_subtitle_chunks "Hello world." 50 2 = ["Hello world."] ∧
      slideSrtEntries "Hello world." 0 2 1 =
        [{ index := 1, start := 0, stop := 2, text := "Hello world." }] :=
  ⟨by decide, single_chunk_slide "Hello world." 2 "Hello world." (by decide)
    (by norm_num) (by norm_num)⟩

/-- C6 counterexample.  The code gives the single entry of the duration-2.0
slide the span 0.0 to 2.0, not the claimed 0.0 to 1.5. -/
theorem c6_counterexample :
    slideSrtEntries "Hello world." 0 2 1 =
        [{ index := 1, start := 0, stop := 2, text := "Hello world." }] ∧
      (2 : ℚ) ≠ 3 / 2 := by
  constructor
  · have hc : split_text_into_subtitle_chunks "Hello world." 50 2 = ["Hello world."] := by
      decide
    have hcd : chunk_duration "Hello world." 2 = 2 := by
      simp only [chunk_duration, hc]
      norm_num
    have hstep : slideSrtEntries "Hello world." 0 2 1 =
        [{ index := 1 + 0
           start := 0 + ((0 : Nat) : ℚ) * chunk_duration "Hello world." 2
           stop := clampStop (0 + ((0 : Nat) : ℚ) * chunk_duration "Hello world." 2)
             (0 + (((0 : Nat) : ℚ) + 1) * chunk_duration "Hello world." 2) (0 + 2)
           text := (split_text_into_subtitle_chunks "Hello world." 50 2).getD 0 "" }] := by
      simp only [slideSrtEntries, hc]
      rfl
    rw [hstep, hc, hcd]
    have hstop : clampStop ((0 : ℚ) + ((0 : Nat) : ℚ) * 2) (0 + (((0 : Nat) : ℚ) + 1) * 2)
        ((0 : ℚ) + 2) = 2 := by
      rw [clampStop_eq 0 2 2 ((0 : Nat) : ℚ)]
      have hr : rclamp (2 : ℚ) = 2 := by
        unfold rclamp
        rw [if_neg (by norm_num), if_neg (by norm_num)]
      rw [hr]
      norm_num
    rw [hstop]
    simp
  · norm_num

/-! ### Claim C10: whitespace-only transcripts -/

/-- C10.  For a slide whose transcript is empty or whitespace-only the chunk
list is empty, the chunk-duration guard returns the audio duration without
dividing, no subtitle entry is emitted for the slide, the subtitle numbering
is unchanged, and the global clock still advances by the audio duration plus
the transition gap. -/
theorem empty_transcript_slide (t : String) (cur D : ℚ) (sidx : Nat) (tb : ℚ) (N : Nat)
    (ts : List String) (img : String) (d : ℚ) (rest : List (String × ℚ)) (i : Nat) (tG : ℚ)
    (sx : Nat) (h : pyWords t = []) (hts : ts.getD i "" = t) :
    split_text_into_subtitle_chunks t 50 2 = [] ∧
      chunk_duration t D = D ∧
      slideSrtEntries t cur D sidx = [] ∧
      (createVideoAux tb N ts ((img, d) :: rest) i tG sx).entries =
        (createVideoAux tb N ts rest (i + 1)
          (tG + (if ¬ i = N - 1 ∧ 0 < tb then d + tb else d)) sx).entries ∧
      (createVideoAux tb N ts ((img, d) :: rest) i tG sx).currentTime =
        (createVideoAux tb N ts rest (i + 1)
          (tG + (if ¬ i = N - 1 ∧ 0 < tb then d + tb else d)) sx).currentTime := by
  have hsplit : split_text_into_subtitle_chunks t 50 2 = [] := by
    simp [split_text_into_subtitle_chunks, chunkWords, h]
  have hcd : chunk_duration t D = D := by
    simp [chunk_duration, hsplit]
  have hentries : ∀ (c' d' : ℚ) (s' : Nat), slideSrtEntries t c' d' s' = [] := by
    intro c' d' s'
    simp [slideSrtEntries, hsplit]
  refine ⟨hsplit, hcd, hentries cur D sidx, ?_, ?_⟩
  · rw [createVideoAux_cons_entries]
    by_cases hi : i < ts.length
    · rw [if_pos hi, hts, hentries]
      simp
    · rw [if_neg hi]
      simp
  · rw [createVideoAux_cons_currentTime]
    by_cases hi : i < ts.length
    · rw [if_pos hi, hts, hentries]
      simp
    · rw [if_neg hi]
      simp

/-- Witness for empty_transcript_slide on a two-slide deck whose first
transcript is whitespace-only. -/
theorem empty_transcript_slide_witness :
    pyWords "   " = [] ∧
      slideSrtEntries "   " 0 5 1 = [] ∧
      (createVideoAux 1 2 ["   ", "Nice day."]
          [("slide_01.png", (5 : ℚ)), ("slide_02.png", 3)] 0 0 1).entries =
        (createVideoAux 1 2 ["   ", "Nice day."] [("slide_02.png", (3 : ℚ))] 1
          (0 + (if ¬ 0 = 2 - 1 ∧ (0 : ℚ) < 1 then 5 + 1 else 5)) 1).entries := by
  have h := empty_transcript_slide "   " 0 5 1 1 2 ["   ", "Nice day."] "slide_01.png" 5
    [("slide_02.png", 3)] 0 0 1 (by decide) rfl
  exact ⟨by decide, h.2.2.1, h.2.2.2.1⟩

/-! ### Claim C8: count mismatch is tolerated, not fatal -/

theorem createVideoAux_clips_length (tb : ℚ) (N : Nat) (ts : List String) :
    ∀ (lst : List (String × ℚ)) (i : Nat) (t : ℚ) (sidx : Nat),
      (createVideoAux tb N ts lst i t sidx).clips.length = lst.length := by
  intro lst
  induction lst with
  | nil =>
    intro i t sidx
    rw [createVideoAux_nil]
  | cons hd rest ih =>
    rcases hd with ⟨img, d⟩
    intro i t sidx
    rw [createVideoAux_cons_clips]
    simp [ih]

theorem createVideoAux_take_transcripts (tb : ℚ) (N : Nat) (ts : List String) (m : Nat) :
    ∀ (lst : List (String × ℚ)) (i : Nat) (t : ℚ) (sidx : Nat), i + lst.length ≤ m →
      createVideoAux tb N ts lst i t sidx = createVideoAux tb N (ts.take m) lst i t sidx := by
  intro lst
  induction lst with
  | nil =>
    intro i t sidx _
    rw [createVideoAux_nil, createVideoAux_nil]
  | cons hd rest ih =>
    rcases hd with ⟨img, d⟩
    intro i t sidx h
    have him : i < m := by
      simp at h
      omega
    have hgetD : (ts.take m).getD i "" = ts.getD i "" := by
      rw [List.getD_eq_getElem?_getD, List.getD_eq_getElem?_getD,
        List.getElem?_take_of_lt him]
    have hiff : (i < (ts.take m).length) = (i < ts.length) := by
      rw [List.length_take]
      apply propext
      constructor <;> intro hx <;> omega
    have hes : (if i < (ts.take m).length then
          slideSrtEntries ((ts.take m).getD i "") t d sidx else []) =
        (if i < ts.length then slideSrtEntries (ts.getD i "") t d sidx else []) := by
      simp only [hgetD, hiff]
    show createVideoAux tb N ts ((img, d) :: rest) i t sidx =
      createVideoAux tb N (ts.take m) ((img, d) :: rest) i t sidx
    have hlhs := createVideoAux_cons_entries tb N ts img d rest i t sidx
    have e1 : createVideoAux tb N ts ((img, d) :: rest) i t sidx =
        { entries := (if i < ts.length then slideSrtEntries (ts.getD i "") t d sidx
              else []) ++
            (createVideoAux tb N ts rest (i + 1)
              (t + (if ¬ i = N - 1 ∧ 0 < tb then d + tb else d))
              (sidx + (if i < ts.length then slideSrtEntries (ts.getD i "") t d sidx
                else []).length)).entries
          currentTime := (createVideoAux tb N ts rest (i + 1)
              (t + (if ¬ i = N - 1 ∧ 0 < tb then d + tb else d))
              (sidx + (if i < ts.length then slideSrtEntries (ts.getD i "") t d sidx
                else []).length)).currentTime
          clips := (img, (if ¬ i = N - 1 ∧ 0 < tb then d + tb else d)) ::
            (createVideoAux tb N ts rest (i + 1)
              (t + (if ¬ i = N - 1 ∧ 0 < tb then d + tb else d))
              (sidx + (if i < ts.length then slideSrtEntries (ts.getD i "") t d sidx
                else []).length)).clips } := rfl
    have e2 : createVideoAux tb N (ts.take m) ((img, d) :: rest) i t sidx =
        { entries := (if i < (ts.take m).length then
              slideSrtEntries ((ts.take m).getD i "") t d sidx else []) ++
            (createVideoAux tb N (ts.take m) rest (i + 1)
              (t + (if ¬ i = N - 1 ∧ 0 < tb then d + tb else d))
              (sidx + (if i < (ts.take m).length then
                slideSrtEntries ((ts.take m).getD i "") t d sidx else []).length)).entries
          currentTime := (createVideoAux tb N (ts.take m) rest (i + 1)
              (t + (if ¬ i = N - 1 ∧ 0 < tb then d + tb else d))
              (sidx + (if i < (ts.take m).length then
                slideSrtEntries ((ts.take m).getD i "") t d sidx else []).length)).currentTime
          clips := (img, (if ¬ i = N - 1 ∧ 0 < tb then d + tb else d)) ::
            (createVideoAux tb N (ts.take m) rest (i + 1)
              (t + (if ¬ i = N - 1 ∧ 0 < tb then d + tb else d))
              (sidx + (if i < (ts.take m).length then
                slideSrtEntries ((ts.take m).getD i "") t d sidx else []).length)).clips }
        := rfl
    rw [e1, e2, hes, ← ih (i + 1) (t + (if ¬ i = N - 1 ∧ 0 < tb then d + tb else d))
      (sidx + (if i < ts.length then slideSrtEntries (ts.getD i "") t d sidx
        else []).length) (by simp at h; omega)]

/-- C8 amended.  A count mismatch between the image, audio and transcript
lists is not fatal: the assembly silently processes the zipped prefix,
producing exactly min(images, audios) clips, and transcripts beyond the
zipped prefix are ignored (the result only depends on the first
min(images, audios) transcripts); subtitle entries are emitted only for
zipped slides that have a transcript at the same index. -/
theorem assembly_mismatch_tolerated (imgs : List String) (ds : List ℚ) (ts : List String)
    (tb : ℚ) :
    (create_video_with_subtitles imgs ds ts tb).clips.length = min imgs.length ds.length ∧
      create_video_with_subtitles imgs ds ts tb =
        create_video_with_subtitles imgs ds (ts.take (min imgs.length ds.length)) tb := by
  constructor
  · unfold create_video_with_subtitles
    rw [createVideoAux_clips_length]
    exact List.length_zip imgs ds
  · unfold create_video_with_subtitles
    exact createVideoAux_take_transcripts tb imgs.length ts (min imgs.length ds.length)
      (imgs.zip ds) 0 0 1 (by rw [List.length_zip]; omega)

/-- C8 counterexample.  With two images, one audio clip and one transcript
the lists have unequal lengths, yet the assembly emits one video clip (of
duration six: five seconds of audio plus the one-second transition) and one
subtitle entry instead of failing with no output. -/
theorem c8_counterexample :
    (["slide_01.png", "slide_02.png"] : List String).length ≠ ([(5 : ℚ)]).length ∧
      (create_video_with_subtitles ["slide_01.png", "slide_02.png"] [5] ["hello"] 1).clips =
        [("slide_01.png", 6)] ∧
      (create_video_with_subtitles ["slide_01.png", "slide_02.png"] [5] ["hello"] 1).entries =
        [{ index := 1, start := 0, stop := 5, text := "hello" }] := by
  have hzip : (["slide_01.png", "slide_02.png"] : List String).zip ([(5 : ℚ)]) =
      [("slide_01.png", (5 : ℚ))] := rfl
  have hgap : (if ¬ (0 : Nat) = 2 - 1 ∧ (0 : ℚ) < 1 then (5 : ℚ) + 1 else 5) = 6 := by
    norm_num
  have hc : split_text_into_subtitle_chunks "hello" 50 2 = ["hello"] := by decide
  have hcd : chunk_duration "hello" 5 = 5 := by
    simp only [chunk_duration, hc]
    norm_num
  have hent : slideSrtEntries "hello" 0 5 1 =
      [{ index := 1, start := 0, stop := 5, text := "hello" }] := by
    have hstep : slideSrtEntries "hello" 0 5 1 =
        [{ index := 1 + 0
           start := 0 + ((0 : Nat) : ℚ) * chunk_duration "hello" 5
           stop := clampStop (0 + ((0 : Nat) : ℚ) * chunk_duration "hello" 5)
             (0 + (((0 : Nat) : ℚ) + 1) * chunk_duration "hello" 5) (0 + 5)
           text := (split_text_into_subtitle_chunks "hello" 50 2).getD 0 "" }] := by
      simp only [slideSrtEntries, hc]
      rfl
    rw [hstep, hc, hcd]
    have hstop : clampStop ((0 : ℚ) + ((0 : Nat) : ℚ) * 5) (0 + (((0 : Nat) : ℚ) + 1) * 5)
        ((0 : ℚ) + 5) = 5 := by
      rw [clampStop_eq 0 5 5 ((0 : Nat) : ℚ)]
      have hr : rclamp (5 : ℚ) = 5 := by
        unfold rclamp
        rw [if_neg (by norm_num), if_neg (by norm_num)]
      rw [hr]
      norm_num
    rw [hstop]
    simp
  refine ⟨by decide, ?_, ?_⟩
  · unfold create_video_with_subtitles
    rw [hzip, createVideoAux_cons_clips, createVideoAux_nil,
      show (["slide_01.png", "slide_02.png"] : List String).length = 2 from rfl, hgap]
  · unfold create_video_with_subtitles
    rw [hzip, createVideoAux_cons_entries, createVideoAux_nil]
    rw [show ((["hello"] : List String).getD 0 "") = "hello" from rfl,
      if_pos (show (0 : Nat) < (["hello"] : List String).length by norm_num), hent]
    simp

/-! ### Claim C7: the polish fallback -/

theorem mem_dictInsert {d : List (Nat × String)} {k : Nat} {v : String} {kv : Nat × String}
    (h : kv ∈ dictInsert d k v) : kv = (k, v) ∨ kv ∈ d := by
  unfold dictInsert at h
  by_cases hmem : d.any (fun kv => kv.1 == k)
  · rw [if_pos hmem] at h
    obtain ⟨old, hold, hodef⟩ := List.mem_map.mp h
    by_cases hk : old.1 = k
    · rw [if_pos hk] at hodef
      exact Or.inl hodef.symm
    · rw [if_neg hk] at hodef
      exact Or.inr (hodef ▸ hold)
  · rw [if_neg hmem] at h
    rcases List.mem_append.mp h with h' | h'
    · exact Or.inr h'
    · exact Or.inl (by simpa using h')

theorem dictInsert_keys_nodup (d : List (Nat × String)) (k : Nat) (v : String)
    (h : (d.map Prod.fst).Nodup) : ((dictInsert d k v).map Prod.fst).Nodup := by
  unfold dictInsert
  by_cases hmem : d.any (fun kv => kv.1 == k)
  · rw [if_pos hmem]
    have hsame : (d.map (fun kv => if kv.1 = k then (k, v) else kv)).map Prod.fst =
        d.map Prod.fst := by
      rw [List.map_map]
      apply List.map_congr_left
      intro kv _
      by_cases hk : kv.1 = k
      · simp [hk]
      · simp [hk]
    rw [hsame]
    exact h
  · rw [if_neg hmem, List.map_append]
    rw [List.nodup_append]
    refine ⟨h, by simp, ?_⟩
    intro a ha hb
    have hak : a = k := by simpa using hb
    subst hak
    obtain ⟨kv, hkv, hfst⟩ := List.mem_map.mp ha
    have : d.any (fun kv => kv.1 == a) = true := by
      rw [List.any_eq_true]
      exact ⟨kv, hkv, by simp [hfst]⟩
    exact hmem this

theorem lookup_of_mem_nodup {d : List (Nat × String)} {k : Nat} {v : String}
    (hmem : (k, v) ∈ d) (hnodup : (d.map Prod.fst).Nodup) : d.lookup k = some v := by
  induction d with
  | nil => simp at hmem
  | cons kv rest ih =>
    rcases kv with ⟨k1, v1⟩
    have hnd : (k1 :: rest.map Prod.fst).Nodup := by simpa using hnodup
    have hhead : k1 ∉ rest.map Prod.fst := (List.nodup_cons.mp hnd).1
    have htail : (rest.map Prod.fst).Nodup := (List.nodup_cons.mp hnd).2
    rcases List.mem_cons.mp hmem with heq | hmem'
    · injection heq with h1 h2
      subst h1
      subst h2
      simp [List.lookup]
    · have hk : (k == k1) = false := by
        have hne : k ≠ k1 := by
          intro he
          apply hhead
          rw [← he]
          exact List.mem_map.mpr ⟨(k, v), hmem', rfl⟩
        simpa using hne
      simp only [List.lookup, hk]
      exact ih hmem' htail

theorem loadAllTranscriptsAux_props (fs : String → String) :
    ∀ (paths : List String) (acc d : List (Nat × String)),
      loadAllTranscriptsAux fs acc paths = .ok d →
      (acc.map Prod.fst).Nodup →
      (d.map Prod.fst).Nodup ∧
        ∀ kv ∈ d, kv ∈ acc ∨
          ∃ p ∈ paths, extract_slide_number p = some kv.1 ∧ kv.2 = pyStrip (fs p) := by
  intro paths
  induction paths with
  | nil =>
    intro acc d h hnd
    simp only [loadAllTranscriptsAux, Except.ok.injEq] at h
    subst h
    exact ⟨hnd, fun kv hkv => Or.inl hkv⟩
  | cons p ps ih =>
    intro acc d h hnd
    simp only [loadAllTranscriptsAux] at h
    cases he : extract_slide_number p with
    | none =>
      rw [he] at h
      simp at h
    | some k =>
      rw [he] at h
      obtain ⟨hnd', hmem⟩ := ih (dictInsert acc k (pyStrip (fs p))) d h
        (dictInsert_keys_nodup acc k _ hnd)
      refine ⟨hnd', ?_⟩
      intro kv hkv
      rcases hmem kv hkv with hin | ⟨q, hq, hext, hcont⟩
      · rcases mem_dictInsert hin with hkv' | hkv'
        · right
          refine ⟨p, by simp, ?_, ?_⟩
          · rw [hkv']
            exact he
          · rw [hkv']
        · exact Or.inl hkv'
      · right
        exact ⟨q, by simp [hq], hext, hcont⟩

/-- C7 amended.  When the polishing transform raises for a slide, the stage
writes that slide's raw text as its polished output instead of failing: given
a rewriter that always raises, polish_transcripts succeeds and produces one
output file per loaded slide whose content equals the stripped bytes of the
corresponding raw transcript file (byte-identical whenever the raw file has
no leading or trailing whitespace; the loader strips what it reads). -/
theorem polish_fallback (tp : TranscriptPolisher) (fs : String → String) (paths : List String)
    (d : List (Nat × String)) (e0 : String)
    (hfail : ∀ prompt, tp.generateDescription prompt = .error e0)
    (hload : load_all_transcripts fs paths = .ok d) :
    polish_transcripts tp fs paths = .ok d ∧
      ∀ kv ∈ d, ∃ p ∈ paths, extract_slide_number p = some kv.1 ∧ kv.2 = pyStrip (fs p) := by
  obtain ⟨hnd, hmem⟩ := loadAllTranscriptsAux_props fs paths [] d hload (by simp)
  constructor
  · unfold polish_transcripts
    rw [hload]
    dsimp only
    have hid : ∀ kv ∈ d, polish_single_transcript tp d kv.1 = kv := by
      intro kv hkv
      rcases kv with ⟨k, v⟩
      have hl : d.lookup k = some v := lookup_of_mem_nodup hkv hnd
      simp [polish_single_transcript, hfail, hl]
    congr 1
    conv_rhs => rw [← List.map_id d]
    apply List.map_congr_left
    intro kv hkv
    simpa using hid kv hkv
  · intro kv hkv
    rcases hmem kv hkv with h | h
    · simp at h
    · exact h

/-- Witness for polish_fallback on two concrete slide files. -/
theorem polish_fallback_witness :
    polish_transcripts tpFail fsDemo ["slide_01.txt", "slide_02.txt"] =
      .ok [(1, "hello"), (2, "world")] :=
  (polish_fallback tpFail fsDemo ["slide_01.txt", "slide_02.txt"]
    [(1, "hello"), (2, "world")] "API error" (fun _ => rfl) (by rfl)).1

/-- C7 counterexample.  The loader strips the raw bytes, so with an
always-raising rewriter the fallback output for a raw file containing a
trailing newline is not byte-identical to that file: the file holds
hello plus newline while the polished output holds hello. -/
theorem c7_counterexample :
    polish_transcripts tpFail fsDemo ["slide_01.txt"] = .ok [(1, "hello")] ∧
      fsDemo "slide_01.txt" = "hello\n" ∧
      ("hello" : String) ≠ "hello\n" :=
  ⟨by rfl, by rfl, by decide⟩

/-! ### Claim C9: stage result ordering -/

theorem lexLeB_total : ∀ (a b : List Char), lexLeB a b = true ∨ lexLeB b a = true := by
  intro a
  induction a with
  | nil => intro b; left; rfl
  | cons x xs ih =>
    intro b
    cases b with
    | nil => right; rfl
    | cons y ys =>
      simp only [lexLeB]
      by_cases hxy : x.toNat < y.toNat
      · left
        rw [if_pos hxy]
      · by_cases hyx : y.toNat < x.toNat
        · right
          rw [if_pos hyx]
        · rcases ih ys with h | h
          · left
            rw [if_neg hxy, if_neg hyx]
            exact h
          · right
            rw [if_neg hyx, if_neg hxy]
            exact h

theorem lexLeB_trans : ∀ (a b c : List Char),
    lexLeB a b = true → lexLeB b c = true → lexLeB a c = true := by
  intro a
  induction a with
  | nil => intro b c _ _; rfl
  | cons x xs ih =>
    intro b c h1 h2
    cases b with
    | nil => simp [lexLeB] at h1
    | cons y ys =>
      cases c with
      | nil => simp [lexLeB] at h2
      | cons z zs =>
        simp only [lexLeB] at h1 h2 ⊢
        by_cases hxy : x.toNat < y.toNat
        · by_cases hyz : y.toNat < z.toNat
          · rw [if_pos (by omega)]
          · by_cases hzy : z.toNat < y.toNat
            · simp [hyz, hzy] at h2
            · rw [if_pos (by omega)]
        · by_cases hyx : y.toNat < x.toNat
          · simp [hxy, hyx] at h1
          · have hxs : lexLeB xs ys = true := by simpa [hxy, hyx] using h1
            by_cases hyz : y.toNat < z.toNat
            · rw [if_pos (by omega)]
            · by_cases hzy : z.toNat < y.toNat
              · simp [hyz, hzy] at h2
              · have hys : lexLeB ys zs = true := by simpa [hyz, hzy] using h2
                rw [if_neg (by omega), if_neg (by omega)]
                exact ih ys zs hxs hys

theorem lexLeB_antisymm : ∀ (a b : List Char),
    lexLeB a b = true → lexLeB b a = true → a = b := by
  intro a
  induction a with
  | nil =>
    intro b h1 h2
    cases b with
    | nil => rfl
    | cons y ys => simp [lexLeB] at h2
  | cons x xs ih =>
    intro b h1 h2
    cases b with
    | nil => simp [lexLeB] at h1
    | cons y ys =>
      by_cases hxy : x.toNat < y.toNat
      · have hnyx : ¬ y.toNat < x.toNat := by omega
        simp [lexLeB, hxy, hnyx] at h2
      · by_cases hyx : y.toNat < x.toNat
        · simp [lexLeB, hxy, hyx] at h1
        · have hx : x = y := by
            have hn : x.toNat = y.toNat := by omega
            have := congrArg Char.ofNat hn
            simpa [Char.ofNat_toNat] using this
          subst hx
          have hxs : lexLeB xs ys = true := by simpa [lexLeB, hxy, hyx] using h1
          have hys : lexLeB ys xs = true := by simpa [lexLeB, hxy, hyx] using h2
          rw [ih ys hxs hys]

theorem sortStrings_eq_of_perm (p q : List String) (h : List.Perm p q) :
    sortStrings p = sortStrings q := by
  haveI ht : IsTrans String strLe :=
    ⟨fun a b c h1 h2 => lexLeB_trans a.data b.data c.data h1 h2⟩
  haveI hto : IsTotal String strLe := ⟨fun a b => lexLeB_total a.data b.data⟩
  haveI has : IsAntisymm String strLe :=
    ⟨fun a b h1 h2 => String.ext (lexLeB_antisymm a.data b.data h1 h2)⟩
  unfold sortStrings
  exact List.eq_of_perm_of_sorted
    ((List.perm_insertionSort strLe p).trans (h.trans (List.perm_insertionSort strLe q).symm))
    (List.sorted_insertionSort strLe p) (List.sorted_insertionSort strLe q)

/-- C9 amended.  Every stage returns the per-slide output paths sorted
lexicographically as strings, independent of the completion order and pool
size of the worker pool; this coincides with slide-index order exactly when
the slide numbers in the names are zero padded to a uniform width, but not in
general (with one hundred or more slides, slide_100 sorts before slide_99, as
the counterexample shows). -/
theorem stage_output_ordering (imagePaths transcriptPaths p1 p2 : List String)
    (slideNums p3 : List Nat) (audioFormat : String)
    (h1 : List.Perm p1 imagePaths) (h2 : List.Perm p2 transcriptPaths)
    (h3 : List.Perm p3 slideNums) :
    generate_transcripts p1 = sortStrings (imagePaths.map transcriptOutputName) ∧
      generate_audio_files audioFormat p2 =
        sortStrings (transcriptPaths.map (audioOutputName audioFormat)) ∧
      polishReturnedPaths p3 = sortStrings (slideNums.map polishedOutputName) :=
  ⟨sortStrings_eq_of_perm _ _ (h1.map transcriptOutputName),
   sortStrings_eq_of_perm _ _ (h2.map (audioOutputName audioFormat)),
   sortStrings_eq_of_perm _ _ (h3.map polishedOutputName)⟩

/-- Witness for stage_output_ordering: each pool completes its two items in
reversed submission order and the returned lists still equal the sorted
outputs of the original inputs. -/
theorem stage_output_ordering_witness :
    generate_transcripts ["slide_02.png", "slide_01.png"] =
        sortStrings (["slide_01.png", "slide_02.png"].map transcriptOutputName) ∧
      generate_audio_files "wav" ["slide_02.txt", "slide_01.txt"] =
        sortStrings (["slide_01.txt", "slide_02.txt"].map (audioOutputName "wav")) ∧
      polishReturnedPaths [2, 1] = sortStrings ([1, 2].map polishedOutputName) :=
  stage_output_ordering ["slide_01.png", "slide_02.png"] ["slide_01.txt", "slide_02.txt"]
    ["slide_02.png", "slide_01.png"] ["slide_02.txt", "slide_01.txt"] [1, 2] [2, 1] "wav"
    (List.Perm.swap "slide_01.png" "slide_02.png" [])
    (List.Perm.swap "slide_01.txt" "slide_02.txt" [])
    (List.Perm.swap 1 2 [])

/-- C9 counterexample.  For a one-hundred-slide deck the transcript stage
returns slide_100.txt before slide_99.txt: string sorting disagrees with
slide-index order, so the output is not the list sorted by slide index. -/
theorem c9_counterexample :
    generate_transcripts ["slide_99.png", "slide_100.png"] =
        ["slide_100.txt", "slide_99.txt"] ∧
      sortBySlideIndex (["slide_99.png", "slide_100.png"].map transcriptOutputName) =
        ["slide_99.txt", "slide_100.txt"] ∧
      extract_slide_number "slide_99.txt" = some 99 ∧
      extract_slide_number "slide_100.txt" = some 100 ∧
      generate_transcripts ["slide_99.png", "slide_100.png"] ≠
        sortBySlideIndex (["slide_99.png", "slide_100.png"].map transcriptOutputName) :=
  ⟨by decide, by decide, by decide, by decide, by decide⟩

end Slide2Video
